import Mathlib

/-!
# Verification of the `buffer` package (lexer.go)

A shallow embedding of the streaming lexer and its buffer-recycling pool
from `lexer.go`, together with proofs about the embedded operations.

Modelling conventions:
* A Go byte slice is a `GoSlice`: the underlying array from the slice base
  to the capacity end (`arr`), plus the slice length (`len`).  `cap` is
  `arr.length`.  Reslicing `s[:k]` keeps `arr` and changes `len`.
* Machine integers (`int`) are `Int`; byte values are `Nat` (< 256 for
  real inputs; no arithmetic here can overflow 32-bit runes).
* Go run-time panics (index out of range, slice bounds out of range,
  `make` with negative capacity) are modelled by `Option`: a function
  returns `none` exactly where the Go code would panic.
* The `io.Reader` collaborator is a queue of chunks plus the terminal
  error it reports once drained; a single `Read` call delivers at most
  one chunk, truncated to the space it was offered.
* Pool-internal indexing (`z.pool[i]`) is totalised with a default block;
  every theorem about the pool carries the well-formedness hypothesis
  (`PoolWF`) under which all such indices are in range, as they are in
  every state the Go code can reach.
-/

abbrev Byte := Nat

/-- Errors returned by the byte source: end-of-stream, or any other
terminal error (distinguished by a code). -/
inductive GoErr where
  | eof
  | other (code : Nat)
deriving DecidableEq, Repr

/-- A Go byte slice: underlying array up to the capacity end, plus length. -/
structure GoSlice where
  arr : List Byte
  len : Nat
deriving DecidableEq, Repr

/-- `cap` of a slice. -/
def GoSlice.cap (s : GoSlice) : Nat := s.arr.length

/-- The visible bytes of a slice (`s[0:len]`). -/
def GoSlice.view (s : GoSlice) : List Byte := s.arr.take s.len

/-- Go index expression `s[i]`: defined for `0 ≤ i < len`, panic otherwise. -/
def GoSlice.get (s : GoSlice) (i : Int) : Option Byte :=
  if 0 ≤ i ∧ i < (s.len : Int) then some (s.arr.getD i.toNat 0) else none

/-- Write `bs` into a list starting at offset `off` (Go `copy` into a
sub-slice / `Read` into `buf[off:]`). -/
def overwrite (arr : List Byte) (off : Nat) (bs : List Byte) : List Byte :=
  arr.take off ++ bs ++ arr.drop (off + bs.length)

/-- The byte source: pending chunks plus the terminal error reported once
they are exhausted. -/
structure Reader where
  chunks : List (List Byte)
  final : GoErr
deriving DecidableEq, Repr

/-- One `Read(p)` call with `space = len(p)`: delivers (a prefix of) the
first chunk, or zero bytes and the terminal error when drained. -/
def Reader.read (r : Reader) (space : Nat) : List Byte × Reader × Option GoErr :=
  match r.chunks with
  | [] => ([], r, some r.final)
  | ch :: rest =>
    if ch.length ≤ space then (ch, ⟨rest, r.final⟩, none)
    else (ch.take space, ⟨ch.drop space :: rest, r.final⟩, none)

/-- `block` from lexer.go: an owned buffer, a successor link
(index in the pool plus one, `0` = none), and a liveness flag. -/
structure Block where
  buf : GoSlice
  next : Nat
  active : Bool
deriving DecidableEq, Repr

/-- Default block used to totalise pool indexing (Go would panic on an
out-of-range pool index; all verified states index in range). -/
def dfltBlock : Block := ⟨⟨[], 0⟩, 0, false⟩

/-- `BufferPool` from lexer.go. `head`/`tail` are indices in `pool` plus
one; `pos` is the byte position in the tail block. -/
structure BufferPool where
  pool : List Block
  head : Nat
  tail : Nat
  pos : Int
deriving DecidableEq, Repr

/-- The block at pool index `i` (totalised). -/
def blk (pool : List Block) (i : Nat) : Block := pool.getD i dfltBlock

/-- The first-fit scan in `swap`: first index whose block is inactive and
has capacity at least `size`. -/
def findFit (pool : List Block) (size : Int) : Option Nat :=
  match pool with
  | [] => none
  | b :: rest =>
    if !b.active ∧ size ≤ (b.buf.cap : Int) then some 0
    else (findFit rest size).map (· + 1)

/-- Lines 38–50 of `swap`: hand out the buffer stored at slot `i`, intern
the caller's retired buffer there, and append the slot at the chain head. -/
def BufferPool.intern (z : BufferPool) (i : Nat) (oldBuf : GoSlice) : GoSlice × BufferPool :=
  let newBuf := (blk z.pool i).buf
  let pool1 := z.pool.set i ⟨oldBuf, 0, true⟩
  let pool2 :=
    if z.head ≠ 0 then
      pool1.set (z.head - 1) { blk pool1 (z.head - 1) with next := i + 1 }
    else pool1
  (⟨newBuf.arr, 0⟩,
   { pool := pool2, head := i + 1,
     tail := if z.tail = 0 then i + 1 else z.tail, pos := z.pos })

/-- `BufferPool.swap` from lexer.go: return a zero-length buffer of
capacity at least `size`, reusing an inactive block, the retired buffer
itself, or a fresh allocation; intern the retired buffer into the chain.
`none` models the `make` panic on a negative requested capacity. -/
def BufferPool.swap (z : BufferPool) (oldBuf : GoSlice) (size : Int) : Option (GoSlice × BufferPool) :=
  match findFit z.pool size with
  | some i => some (z.intern i oldBuf)
  | none =>
    if z.tail = 0 ∧ (oldBuf.len : Int) ≤ z.pos ∧ size ≤ (oldBuf.cap : Int) then
      some (⟨oldBuf.arr, 0⟩, { z with pos := z.pos - oldBuf.len })
    else if 0 ≤ size then
      let z1 : BufferPool :=
        { z with pool := z.pool ++ [⟨⟨List.replicate size.toNat 0, 0⟩, 0, true⟩] }
      some (z1.intern (z1.pool.length - 1) oldBuf)
    else none

/-- The `for` loop of `free`: while the chain is non-empty and `pos`
covers the tail block, pop the tail and mark it inactive.  `fuel` bounds
the iterations; the caller passes `pool.length + 1`, which under `PoolWF`
is never exhausted. -/
def freeLoop : Nat → BufferPool → BufferPool
  | 0, z => z
  | fuel + 1, z =>
    if z.tail ≠ 0 ∧ ((blk z.pool (z.tail - 1)).buf.len : Int) ≤ z.pos then
      let b := blk z.pool (z.tail - 1)
      freeLoop fuel
        { z with pos := z.pos - b.buf.len,
                 pool := z.pool.set (z.tail - 1) { b with active := false },
                 tail := b.next }
    else z

/-- `BufferPool.free` from lexer.go: advance the consumed-byte count and
reclaim fully drained tail blocks. -/
def BufferPool.free (z : BufferPool) (n : Int) : BufferPool :=
  let z1 : BufferPool := { z with pos := z.pos + n }
  let z2 := freeLoop (z1.pool.length + 1) z1
  if z2.tail = 0 then { z2 with head := 0 } else z2

/-- `Lexer` from lexer.go.  The `Free` bound-method field carries no
state and is omitted; `pool.free` stands for it. -/
structure Lexer where
  rdr : Reader
  err : Option GoErr
  pool : BufferPool
  buf : GoSlice
  start : Int
  pos : Int
  prevStart : Int
deriving DecidableEq, Repr

/-- The buffered-but-uncommitted bytes: `z.buf[z.start:]` as a value
(the unfinished token that every refill must carry over). -/
def tailView (z : Lexer) : List Byte := z.buf.view.drop z.start.toNat

/-- The capacity `read` requests from the pool for a miss at `pos`
(`c` in lexer.go): grow geometrically (`2*c + p`) when the unfinished
token exceeds half the buffer, else keep the current capacity. -/
def readCap (z : Lexer) (pos : Int) : Int :=
  if 2 * (pos - z.start) > (z.buf.cap : Int) then 2 * (z.buf.cap : Int) + (pos - z.start)
  else (z.buf.cap : Int)

/-- The lexer state after the refill body of `read`, given the buffer and
pool returned by `swap`: copy the unfinished token to the front
(`copy(buf[:d], z.buf[z.start:])`), read from the source into the
remainder (`z.r.Read(buf[d:cap(buf)])`), renumber `start` to 0. -/
def afterRefill (z : Lexer) (buf0 : GoSlice) (pool1 : BufferPool) : Lexer :=
  let d : Nat := z.buf.len - z.start.toNat
  let res := Reader.read z.rdr (buf0.cap - d)
  { rdr := res.2.1, err := res.2.2, pool := pool1,
    buf := ⟨overwrite (overwrite buf0.arr 0 (tailView z)) d res.1, d + res.1.length⟩,
    start := 0, pos := z.pos - z.start, prevStart := z.prevStart }

/-- `Lexer.read` from lexer.go: swap in a (possibly larger) buffer, copy
the unfinished token forward, refill from the source, and return the byte
at `pos`; on a zero-byte read record the error (synthesising end-of-stream).
`none` marks the Go panics: slice bounds (`z.buf[:z.start]`,
`z.buf[z.start:]`, `buf[:d]`) and the final index `z.buf[pos]`. -/
def Lexer.read (z : Lexer) (pos : Int) : Option (Byte × Lexer) :=
  if z.err.isSome then some (0, z)
  else if 0 ≤ z.start ∧ z.start ≤ (z.buf.cap : Int) ∧ z.start ≤ (z.buf.len : Int) then
    match z.pool.swap ⟨z.buf.arr, z.start.toNat⟩ (readCap z pos) with
    | none => none
    | some (buf0, pool1) =>
      if z.buf.len - z.start.toNat ≤ buf0.cap then
        let z1 := afterRefill z buf0 pool1
        if (Reader.read z.rdr (buf0.cap - (z.buf.len - z.start.toNat))).1.length = 0 then
          some (0, { z1 with err := if z1.err.isSome then z1.err else some .eof })
        else
          match z1.buf.get (pos - z.start) with
          | some b => some (b, z1)
          | none => none
      else none
  else none

/-- `Lexer.Peek` from lexer.go. -/
def Lexer.Peek (z : Lexer) (off : Int) : Option (Byte × Lexer) :=
  let pos := off + z.pos
  if (z.buf.len : Int) ≤ pos then z.read pos
  else
    match z.buf.get pos with
    | some b => some (b, z)
    | none => none

/-- `Lexer.PeekRune` from lexer.go: decode one codepoint by the
leading-byte thresholds 0xC0 / 0xE0 / 0xF0, masking continuation bytes
with 0x3F.  Returns (codepoint, byte length). -/
def Lexer.PeekRune (z : Lexer) (pos : Int) : Option ((Nat × Nat) × Lexer) :=
  match z.Peek pos with
  | none => none
  | some (c, z1) =>
    if c < 0xC0 then some ((c, 1), z1)
    else if c < 0xE0 then
      match z1.Peek (pos + 1) with
      | none => none
      | some (c1, z2) =>
        some (((c &&& 0x1F) <<< 6 ||| (c1 &&& 0x3F), 2), z2)
    else if c < 0xF0 then
      match z1.Peek (pos + 1) with
      | none => none
      | some (c1, z2) =>
        match z2.Peek (pos + 2) with
        | none => none
        | some (c2, z3) =>
          some (((c &&& 0x0F) <<< 12 ||| (c1 &&& 0x3F) <<< 6 ||| (c2 &&& 0x3F), 3), z3)
    else
      match z1.Peek (pos + 1) with
      | none => none
      | some (c1, z2) =>
        match z2.Peek (pos + 2) with
        | none => none
        | some (c2, z3) =>
          match z3.Peek (pos + 3) with
          | none => none
          | some (c3, z4) =>
            some (((c &&& 0x07) <<< 18 ||| (c1 &&& 0x3F) <<< 12 |||
                   (c2 &&& 0x3F) <<< 6 ||| (c3 &&& 0x3F), 4), z4)

/-- `Lexer.Err` from lexer.go: `io.EOF` is suppressed while uncommitted
buffered bytes remain ahead of the cursor. -/
def Lexer.Err (z : Lexer) : Option GoErr :=
  if z.err = some .eof ∧ z.pos < (z.buf.len : Int) then none else z.err

/-- `Lexer.Move` from lexer.go. -/
def Lexer.Move (z : Lexer) (n : Int) : Lexer := { z with pos := z.pos + n }

/-- `Lexer.Pos` from lexer.go. -/
def Lexer.Pos (z : Lexer) : Int := z.pos - z.start

/-- `Lexer.Rewind` from lexer.go. -/
def Lexer.Rewind (z : Lexer) (pos : Int) : Lexer := { z with pos := z.start + pos }

/-- `Lexer.Lexeme` from lexer.go: the slice expression `z.buf[z.start:z.pos]`
(valid for `0 ≤ start ≤ pos ≤ cap`, panic otherwise). -/
def Lexer.Lexeme (z : Lexer) : Option (List Byte) :=
  if 0 ≤ z.start ∧ z.start ≤ z.pos ∧ z.pos ≤ (z.buf.cap : Int) then
    some ((z.buf.arr.take z.pos.toNat).drop z.start.toNat)
  else none

/-- `Lexer.Shift` from lexer.go. -/
def Lexer.Shift (z : Lexer) : Option (List Byte × Lexer) :=
  match z.Lexeme with
  | some b => some (b, { z with start := z.pos })
  | none => none

/-- `Lexer.ShiftLen` from lexer.go. -/
def Lexer.ShiftLen (z : Lexer) : Int × Lexer :=
  (z.start - z.prevStart, { z with prevStart := z.start })

/-- `Lexer.Skip` from lexer.go. -/
def Lexer.Skip (z : Lexer) : Lexer := { z with start := z.pos }

/-- `NewLexerSize` fast path: an in-memory source (`Bytes()` available)
is adopted directly, with `err` already `io.EOF`. -/
def newLexerBytes (content : List Byte) : Lexer :=
  { rdr := ⟨[], .eof⟩, err := some .eof, pool := ⟨[], 0, 0, 0⟩,
    buf := ⟨content, content.length⟩, start := 0, pos := 0, prevStart := 0 }

/-- `NewLexerSize` from lexer.go (reader path): allocate a buffer of the
estimated size and prime it with `Peek(0)`.  `none` models the `make`
panic on a negative size (never taken for real sizes). -/
def newLexerSize (r : Reader) (size : Int) : Option Lexer :=
  if 0 ≤ size then
    let z : Lexer :=
      { rdr := r, err := none, pool := ⟨[], 0, 0, 0⟩,
        buf := ⟨List.replicate size.toNat 0, 0⟩,
        start := 0, pos := 0, prevStart := 0 }
    (z.Peek 0).map (·.2)
  else none

/-! ## Derived notions used by the statements -/

/-- All bytes the source will ever deliver, in order. -/
def flatR (r : Reader) : List Byte := r.chunks.flatten

/-- The Lexer cursor invariant from the spec:
`0 ≤ start ≤ pos ≤ length(buf) ≤ capacity(buf)`. -/
def LexInv (z : Lexer) : Prop :=
  0 ≤ z.start ∧ z.start ≤ z.pos ∧ z.pos ≤ (z.buf.len : Int) ∧ z.buf.len ≤ z.buf.cap

instance (z : Lexer) : Decidable (LexInv z) := by unfold LexInv; infer_instance

/-- Trace invariant tying a lexer to its source: the cursor invariant
holds and committed bytes ++ uncommitted buffered bytes ++ undelivered
bytes reconstruct the whole source content. -/
def Good (src acc : List Byte) (z : Lexer) : Prop :=
  LexInv z ∧ acc ++ tailView z ++ flatR z.rdr = src

/-- One public Lexer operation, for trace statements. -/
inductive LexOp where
  | peek (n : Int)
  | peekRune (n : Int)
  | move (n : Int)
  | mark
  | rewind (p : Int)
  | lexeme
  | shift
  | skip
  | shiftLen
deriving DecidableEq, Repr

/-- The state transition of one operation (`none` on a Go panic). -/
def stepF : LexOp → Lexer → Option Lexer
  | .peek n, z => (z.Peek n).map (·.2)
  | .peekRune n, z => (z.PeekRune n).map (·.2)
  | .move n, z => some (z.Move n)
  | .mark, z => some z
  | .rewind p, z => some (z.Rewind p)
  | .lexeme, z => (z.Lexeme).map (fun _ => z)
  | .shift, z => (z.Shift).map (·.2)
  | .skip, z => some z.Skip
  | .shiftLen, z => some (z.ShiftLen).2

/-- Range discipline on cursor movement: `Move` and `Rewind` must land
the cursor inside `[start, len(buf)]`; the other operations need nothing. -/
def opOk : LexOp → Lexer → Prop
  | .move n, z => z.start ≤ z.pos + n ∧ z.pos + n ≤ (z.buf.len : Int)
  | .rewind p, z => 0 ≤ p ∧ z.start + p ≤ (z.buf.len : Int)
  | _, _ => True

instance (op : LexOp) (z : Lexer) : Decidable (opOk op z) := by
  cases op <;> (unfold opOk; infer_instance)

/-- One operation together with the bytes it commits: `Shift` emits its
lexeme, `Skip` emits the span it discards, everything else emits nothing. -/
def stepOut : LexOp → Lexer → Option (List Byte × Lexer)
  | .shift, z => z.Shift
  | .skip, z => (z.Lexeme).map (fun l => (l, z.Skip))
  | op, z => (stepF op z).map (fun z' => ([], z'))

/-- Run a list of operations under the range discipline, collecting every
committed byte in order (`none` if an operation panics or breaks the
discipline). -/
def execC : List LexOp → Lexer → Option (List Byte × Lexer)
  | [], z => some ([], z)
  | op :: ops, z =>
    if opOk op z then
      match stepOut op z with
      | none => none
      | some (out, z') =>
        match execC ops z' with
        | none => none
        | some (acc, z'') => some (out ++ acc, z'')
    else none

/-! ## Pool chain well-formedness -/

/-- `chainSeg pool m t L`: starting from pointer `t`, following `next`
links visits exactly the indices in `L`, each in range and active,
ending at pointer `m`. -/
def chainSeg (pool : List Block) (m : Nat) : Nat → List Nat → Prop
  | t, [] => t = m
  | t, i :: rest =>
    t = i + 1 ∧ i < pool.length ∧ (blk pool i).active = true ∧
      chainSeg pool m (blk pool i).next rest

instance instDecChainSeg (pool : List Block) (m : Nat) :
    (t : Nat) → (L : List Nat) → Decidable (chainSeg pool m t L)
  | t, [] => by unfold chainSeg; infer_instance
  | t, i :: rest => by
    unfold chainSeg
    have := instDecChainSeg pool m (blk pool i).next rest
    infer_instance

/-- `chainLinks pool t L`: starting from tail pointer `t`, following
`next` links visits exactly the indices in `L` (tail to head), each in
range and active, ending with link `0`. -/
def chainLinks (pool : List Block) (t : Nat) (L : List Nat) : Prop :=
  chainSeg pool 0 t L

instance (pool : List Block) (t : Nat) (L : List Nat) : Decidable (chainLinks pool t L) := by
  unfold chainLinks
  infer_instance

/-- The head pointer a chain determines: index of the last element plus
one, or `0` for the empty chain. -/
def chainHead : List Nat → Nat
  | [] => 0
  | [i] => i + 1
  | _ :: rest => chainHead rest

/-- Pool well-formedness: some duplicate-free index list is the tail-to-
head chain, and `head` points at its last element. -/
def PoolWF (z : BufferPool) : Prop :=
  ∃ L, chainLinks z.pool z.tail L ∧ z.head = chainHead L ∧ L.Nodup

/-- Lengths of the chain blocks' buffers, tail to head. -/
def chainLens (pool : List Block) (L : List Nat) : List Nat :=
  L.map (fun i => (blk pool i).buf.len)

/-- The liveness flag of pool slot `i`. -/
def blkActive (pool : List Block) (i : Nat) : Bool := (blk pool i).active

/-- Length of the tail block's buffer. -/
def tailLen (z : BufferPool) : Nat := (blk z.pool (z.tail - 1)).buf.len

/-- How many leading blocks of lengths `lens` a consumed-byte count `p`
covers (the number of iterations of `free`'s loop). -/
def popCount (p : Int) : List Nat → Nat
  | [] => 0
  | l :: ls => if (l : Int) ≤ p then popCount (p - l) ls + 1 else 0


/-! # Theorems -/

/-! ## List and slice lemmas -/

theorem overwrite_length (arr bs : List Byte) (off : Nat)
    (h : off + bs.length ≤ arr.length) :
    (overwrite arr off bs).length = arr.length := by
  unfold overwrite
  simp only [List.length_append, List.length_take, List.length_drop]
  omega

theorem overwrite_take (arr bs : List Byte) (off : Nat)
    (h : off ≤ arr.length) :
    (overwrite arr off bs).take (off + bs.length) = arr.take off ++ bs := by
  unfold overwrite
  rw [List.append_assoc, List.take_append_eq_append_take]
  have h1 : (arr.take off).length = off := by simp [List.length_take]; omega
  rw [h1]
  have h2 : off + bs.length - off = bs.length := by omega
  rw [h2, List.take_append_eq_append_take, List.take_length,
      Nat.sub_self, List.take_zero, List.append_nil]
  simp [List.take_take, List.take_left, Nat.min_self]

theorem drop_split (X : List Byte) (s p : Nat) (hsp : s ≤ p) :
    X.drop s = (X.take p).drop s ++ X.drop p := by
  conv_lhs => rw [← List.take_append_drop p X]
  rw [List.drop_append_eq_append_drop]
  have h1 : (X.take p).length = min p X.length := by simp
  by_cases hp : p ≤ X.length
  · have : s - (X.take p).length = 0 := by omega
    rw [this, List.drop_zero]
  · have h2 : X.drop p = [] := by
      apply List.drop_eq_nil_of_le; omega
    rw [h2]
    simp

/-! ## Reader lemmas -/

theorem reader_read_length (r : Reader) (space : Nat) :
    (r.read space).1.length ≤ space := by
  unfold Reader.read
  match r with
  | ⟨[], e⟩ => simp
  | ⟨ch :: rest, e⟩ =>
    by_cases h : ch.length ≤ space <;> simp [h]

theorem reader_read_flat (r : Reader) (space : Nat) :
    (r.read space).1 ++ flatR (r.read space).2.1 = flatR r := by
  unfold Reader.read flatR
  match r with
  | ⟨[], e⟩ => simp
  | ⟨ch :: rest, e⟩ =>
    by_cases h : ch.length ≤ space
    · simp [h]
    · simp only [if_neg h, List.flatten_cons]
      rw [← List.append_assoc, List.take_append_drop]

/-! ## Pool `swap` lemmas -/

theorem findFit_spec (pool : List Block) (size : Int) (i : Nat)
    (h : findFit pool size = some i) :
    i < pool.length ∧ (blk pool i).active = false ∧ size ≤ ((blk pool i).buf.cap : Int) := by
  induction pool generalizing i with
  | nil => simp [findFit] at h
  | cons b rest ih =>
    unfold findFit at h
    by_cases hb : (!b.active ∧ size ≤ (b.buf.cap : Int) : Prop)
    · rw [if_pos hb] at h
      obtain ⟨hb1, hb2⟩ := hb
      cases h
      simp only [blk, List.getD_cons_zero, List.length_cons]
      exact ⟨Nat.succ_pos _, by simpa using hb1, hb2⟩
    · rw [if_neg hb] at h
      match hi : findFit rest size with
      | none => rw [hi] at h; simp at h
      | some j =>
        rw [hi] at h
        simp only [Option.map_some'] at h
        obtain ⟨h1, h2, h3⟩ := ih j hi
        cases h
        simp only [blk, List.getD_cons_succ, List.length_cons]
        exact ⟨by omega, h2, h3⟩

theorem intern_newbuf (z : BufferPool) (i : Nat) (oldBuf : GoSlice) :
    (z.intern i oldBuf).1 = ⟨(blk z.pool i).buf.arr, 0⟩ := by
  rfl

theorem swap_total (z : BufferPool) (oldBuf : GoSlice) (size : Int)
    (hsize : 0 ≤ size) :
    ∃ nb z', z.swap oldBuf size = some (nb, z') ∧ nb.len = 0 ∧ size ≤ (nb.cap : Int) := by
  unfold BufferPool.swap
  match hf : findFit z.pool size with
  | some i =>
    obtain ⟨h1, h2, h3⟩ := findFit_spec z.pool size i hf
    exact ⟨_, _, rfl, rfl, by simpa [BufferPool.intern, GoSlice.cap] using h3⟩
  | none =>
    by_cases hip : (z.tail = 0 ∧ (oldBuf.len : Int) ≤ z.pos ∧ size ≤ (oldBuf.cap : Int) : Prop)
    · rw [if_pos hip]
      exact ⟨_, _, rfl, rfl, hip.2.2⟩
    · rw [if_neg hip, if_pos hsize]
      refine ⟨_, _, rfl, rfl, ?_⟩
      simp only [BufferPool.intern, GoSlice.cap]
      have hlen : (z.pool ++ [(⟨⟨List.replicate size.toNat 0, 0⟩, 0, true⟩ : Block)]).length
          = z.pool.length + 1 := by simp
      have hblk : blk (z.pool ++ [(⟨⟨List.replicate size.toNat 0, 0⟩, 0, true⟩ : Block)])
          ((z.pool ++ [(⟨⟨List.replicate size.toNat 0, 0⟩, 0, true⟩ : Block)]).length - 1)
          = ⟨⟨List.replicate size.toNat 0, 0⟩, 0, true⟩ := by
        rw [hlen]
        simp [blk, List.getD_append_right, List.getD]
      rw [hblk]
      rw [show ({ buf := { arr := List.replicate size.toNat 0, len := 0 }, next := 0, active := true } : Block).buf.arr.length = size.toNat by simp]
      exact Int.self_le_toNat size

theorem swap_cap (z : BufferPool) (oldBuf : GoSlice) (size : Int)
    (nb : GoSlice) (z' : BufferPool) (h : z.swap oldBuf size = some (nb, z')) :
    nb.len = 0 ∧ size ≤ (nb.cap : Int) := by
  unfold BufferPool.swap at h
  match hf : findFit z.pool size with
  | some i =>
    rw [hf] at h
    obtain ⟨h1, h2, h3⟩ := findFit_spec z.pool size i hf
    cases h
    exact ⟨rfl, by simpa [BufferPool.intern, GoSlice.cap] using h3⟩
  | none =>
    rw [hf] at h
    by_cases hip : (z.tail = 0 ∧ (oldBuf.len : Int) ≤ z.pos ∧ size ≤ (oldBuf.cap : Int) : Prop)
    · rw [if_pos hip] at h
      cases h
      exact ⟨rfl, hip.2.2⟩
    · rw [if_neg hip] at h
      by_cases hs : 0 ≤ size
      · rw [if_pos hs] at h
        cases h
        constructor
        · rfl
        · simp only [BufferPool.intern, GoSlice.cap]
          have hlen : (z.pool ++ [(⟨⟨List.replicate size.toNat 0, 0⟩, 0, true⟩ : Block)]).length
              = z.pool.length + 1 := by simp
          have hblk : blk (z.pool ++ [(⟨⟨List.replicate size.toNat 0, 0⟩, 0, true⟩ : Block)])
              ((z.pool ++ [(⟨⟨List.replicate size.toNat 0, 0⟩, 0, true⟩ : Block)]).length - 1)
              = ⟨⟨List.replicate size.toNat 0, 0⟩, 0, true⟩ := by
            rw [hlen]
            simp [blk, List.getD_append_right, List.getD]
          rw [hblk]
          rw [show ({ buf := { arr := List.replicate size.toNat 0, len := 0 }, next := 0, active := true } : Block).buf.arr.length = size.toNat by simp]
          exact Int.self_le_toNat size
      · rw [if_neg hs] at h
        exact absurd h (by simp)

/-! ## Slice and refill lemmas -/

theorem view_length (s : GoSlice) (h : s.len ≤ s.cap) : s.view.length = s.len := by
  simp only [GoSlice.view, List.length_take]
  simp only [GoSlice.cap] at h
  omega

theorem getD_take (l : List Byte) (nn k : Nat) (h : k < nn) :
    (l.take nn).getD k 0 = l.getD k 0 := by
  simp [List.getD, List.getElem?_take, h]

theorem get_view (s : GoSlice) (i : Int) (_h : s.len ≤ s.cap) (h0 : 0 ≤ i)
    (h1 : i < (s.len : Int)) :
    s.get i = some (s.view.getD i.toNat 0) := by
  unfold GoSlice.get
  rw [if_pos ⟨h0, h1⟩, GoSlice.view, getD_take]
  omega

theorem tailView_length (z : Lexer) (hinv : LexInv z) :
    (tailView z).length = z.buf.len - z.start.toNat := by
  obtain ⟨i1, i2, i3, i4⟩ := hinv
  simp only [tailView, List.length_drop, view_length z.buf i4]

theorem afterRefill_spec (z : Lexer) (buf0 : GoSlice) (pool1 : BufferPool)
    (hinv : LexInv z) (hd : z.buf.len - z.start.toNat ≤ buf0.cap) :
    (afterRefill z buf0 pool1).buf.view =
      tailView z ++ (Reader.read z.rdr (buf0.cap - (z.buf.len - z.start.toNat))).1 ∧
    (afterRefill z buf0 pool1).buf.len =
      (z.buf.len - z.start.toNat) +
        (Reader.read z.rdr (buf0.cap - (z.buf.len - z.start.toNat))).1.length ∧
    (afterRefill z buf0 pool1).buf.cap = buf0.cap ∧
    LexInv (afterRefill z buf0 pool1) := by
  obtain ⟨i1, i2, i3, i4⟩ := hinv
  have htl : (tailView z).length = z.buf.len - z.start.toNat :=
    tailView_length z ⟨i1, i2, i3, i4⟩
  set d : Nat := z.buf.len - z.start.toNat with hdd
  set bs : List Byte := (Reader.read z.rdr (buf0.cap - d)).1 with hbs
  have hn : bs.length ≤ buf0.cap - d := reader_read_length z.rdr (buf0.cap - d)
  have harr1 : (overwrite buf0.arr 0 (tailView z)).length = buf0.cap := by
    rw [overwrite_length]
    · rfl
    · rw [htl]; simpa [GoSlice.cap] using hd
  have harr2 : (overwrite (overwrite buf0.arr 0 (tailView z)) d bs).length = buf0.cap := by
    rw [overwrite_length]
    · exact harr1
    · rw [harr1]; omega
  have htake1 : (overwrite buf0.arr 0 (tailView z)).take d = tailView z := by
    unfold overwrite
    simp only [List.take_zero, List.nil_append, Nat.zero_add]
    rw [← htl, List.take_append_eq_append_take, List.take_length, Nat.sub_self,
        List.take_zero, List.append_nil]
  have hview : (afterRefill z buf0 pool1).buf.view = tailView z ++ bs := by
    show (overwrite (overwrite buf0.arr 0 (tailView z)) d bs).take (d + bs.length)
        = tailView z ++ bs
    rw [overwrite_take]
    · rw [htake1]
    · rw [harr1]; omega
  have hlen : (afterRefill z buf0 pool1).buf.len = d + bs.length := rfl
  have hcap : (afterRefill z buf0 pool1).buf.cap = buf0.cap := harr2
  refine ⟨hview, hlen, hcap, ?_⟩
  refine ⟨le_refl 0, ?_, ?_, ?_⟩
  · show (0 : Int) ≤ z.pos - z.start
    omega
  · show z.pos - z.start ≤ ((d + bs.length : Nat) : Int)
    omega
  · rw [hlen, hcap]
    omega

theorem read_spec (z : Lexer) (pos : Int) (hinv : LexInv z) (herr : z.err = none)
    (hpos : (z.buf.len : Int) ≤ pos) :
    ∃ buf0 pool1,
      z.pool.swap ⟨z.buf.arr, z.start.toNat⟩ (readCap z pos) = some (buf0, pool1) ∧
      z.buf.len - z.start.toNat ≤ buf0.cap ∧
      ((Reader.read z.rdr (buf0.cap - (z.buf.len - z.start.toNat))).1 = [] →
        z.read pos = some (0, { afterRefill z buf0 pool1 with
          err := if (afterRefill z buf0 pool1).err.isSome
                 then (afterRefill z buf0 pool1).err else some .eof })) ∧
      ((Reader.read z.rdr (buf0.cap - (z.buf.len - z.start.toNat))).1 ≠ [] →
        pos - z.start < ((afterRefill z buf0 pool1).buf.len : Int) →
        z.read pos = some
          ((afterRefill z buf0 pool1).buf.view.getD (pos - z.start).toNat 0,
           afterRefill z buf0 pool1)) ∧
      ((Reader.read z.rdr (buf0.cap - (z.buf.len - z.start.toNat))).1 ≠ [] →
        ((afterRefill z buf0 pool1).buf.len : Int) ≤ pos - z.start →
        z.read pos = none) := by
  obtain ⟨i1, i2, i3, i4⟩ := hinv
  have hsp : z.start ≤ pos := by omega
  have hcap_le : (z.buf.cap : Int) ≤ readCap z pos := by
    unfold readCap
    split <;> omega
  have hc : 0 ≤ readCap z pos := by
    have : (0 : Int) ≤ (z.buf.cap : Int) := by positivity
    omega
  obtain ⟨buf0, pool1, hswap, hb0, hbcap⟩ :=
    swap_total z.pool ⟨z.buf.arr, z.start.toNat⟩ (readCap z pos) hc
  have hd : z.buf.len - z.start.toNat ≤ buf0.cap := by
    simp only [GoSlice.cap] at hbcap ⊢
    omega
  obtain ⟨hview, hlen, hcapr, hinv1⟩ :=
    afterRefill_spec z buf0 pool1 ⟨i1, i2, i3, i4⟩ hd
  have hread : z.read pos =
      (if (Reader.read z.rdr (buf0.cap - (z.buf.len - z.start.toNat))).1.length = 0 then
        some ((0 : Byte), { afterRefill z buf0 pool1 with
          err := if (afterRefill z buf0 pool1).err.isSome
                 then (afterRefill z buf0 pool1).err else some .eof })
      else
        match (afterRefill z buf0 pool1).buf.get (pos - z.start) with
        | some b => some (b, afterRefill z buf0 pool1)
        | none => none) := by
    unfold Lexer.read
    rw [if_neg (by simp [herr])]
    rw [if_pos ⟨i1, by omega, by omega⟩]
    rw [hswap]
    simp only [if_pos hd]
  refine ⟨buf0, pool1, hswap, hd, ?_, ?_, ?_⟩
  · intro hbs
    rw [hread, if_pos (by rw [hbs]; rfl)]
  · intro hbs hlt
    rw [hread, if_neg (by simpa using hbs)]
    obtain ⟨a1, a2, a3, a4⟩ := hinv1
    rw [get_view _ _ a4 (by omega) hlt]
  · intro hbs hge
    rw [hread, if_neg (by simpa using hbs)]
    have : (afterRefill z buf0 pool1).buf.get (pos - z.start) = none := by
      unfold GoSlice.get
      rw [if_neg]
      intro hcon
      omega
    rw [this]

/-! ## Trace invariant preservation -/

theorem good_refill_eof (src acc : List Byte) (z : Lexer) (buf0 : GoSlice)
    (pool1 : BufferPool) (e : Option GoErr) (hg : Good src acc z)
    (hd : z.buf.len - z.start.toNat ≤ buf0.cap) :
    Good src acc { afterRefill z buf0 pool1 with err := e } := by
  obtain ⟨hinv, heq⟩ := hg
  obtain ⟨hview, hlen, hcap, hinv1⟩ := afterRefill_spec z buf0 pool1 hinv hd
  constructor
  · exact hinv1
  · have htv : tailView { afterRefill z buf0 pool1 with err := e } =
        tailView z ++ (Reader.read z.rdr (buf0.cap - (z.buf.len - z.start.toNat))).1 := by
      show (afterRefill z buf0 pool1).buf.view.drop (Int.toNat 0) = _
      rw [Int.toNat_zero, List.drop_zero, hview]
    have hfl : (Reader.read z.rdr (buf0.cap - (z.buf.len - z.start.toNat))).1 ++
        flatR { afterRefill z buf0 pool1 with err := e }.rdr = flatR z.rdr :=
      reader_read_flat z.rdr (buf0.cap - (z.buf.len - z.start.toNat))
    rw [htv, ← heq]
    rw [List.append_assoc acc (tailView z), ← hfl]
    simp [List.append_assoc]

theorem good_read (src acc : List Byte) (z : Lexer) (pos : Int) (b : Byte) (z' : Lexer)
    (hg : Good src acc z) (hpos : (z.buf.len : Int) ≤ pos)
    (h : z.read pos = some (b, z')) : Good src acc z' := by
  by_cases herr : z.err.isSome
  · have : z.read pos = some (0, z) := by
      unfold Lexer.read
      rw [if_pos herr]
    rw [this] at h
    cases h
    exact hg
  · have herr' : z.err = none := by
      cases hz : z.err
      · rfl
      · rw [hz] at herr; simp at herr
    obtain ⟨buf0, pool1, hswap, hd, heof, hin, hout⟩ :=
      read_spec z pos hg.1 herr' hpos
    by_cases hbs : (Reader.read z.rdr (buf0.cap - (z.buf.len - z.start.toNat))).1 = []
    · rw [heof hbs] at h
      cases h
      exact good_refill_eof src acc z buf0 pool1 _ hg hd
    · by_cases hlt : pos - z.start < ((afterRefill z buf0 pool1).buf.len : Int)
      · rw [hin hbs hlt] at h
        cases h
        have := good_refill_eof src acc z buf0 pool1 (afterRefill z buf0 pool1).err hg hd
        exact this
      · rw [hout hbs (by omega)] at h
        exact absurd h (by simp)

theorem good_peek (src acc : List Byte) (z : Lexer) (off : Int) (b : Byte) (z' : Lexer)
    (hg : Good src acc z) (h : z.Peek off = some (b, z')) : Good src acc z' := by
  unfold Lexer.Peek at h
  by_cases hge : (z.buf.len : Int) ≤ off + z.pos
  · rw [if_pos hge] at h
    exact good_read src acc z (off + z.pos) b z' hg hge h
  · rw [if_neg hge] at h
    match hx : z.buf.get (off + z.pos) with
    | some v => rw [hx] at h; cases h; exact hg
    | none => rw [hx] at h; exact absurd h (by simp)

theorem good_peekRune (src acc : List Byte) (z : Lexer) (pos : Int)
    (r : Nat × Nat) (z' : Lexer) (hg : Good src acc z)
    (h : z.PeekRune pos = some (r, z')) : Good src acc z' := by
  unfold Lexer.PeekRune at h
  match h1 : z.Peek pos with
  | none => rw [h1] at h; exact absurd h (by simp)
  | some (c, z1) =>
    rw [h1] at h
    dsimp only [] at h
    have hg1 := good_peek src acc z pos c z1 hg h1
    by_cases hc1 : c < 0xC0
    · rw [if_pos hc1] at h; cases h; exact hg1
    · rw [if_neg hc1] at h
      by_cases hc2 : c < 0xE0
      · rw [if_pos hc2] at h
        match h2 : z1.Peek (pos + 1) with
        | none => rw [h2] at h; exact absurd h (by simp)
        | some (c1, z2) =>
          rw [h2] at h
          dsimp only [] at h
          cases h
          exact good_peek src acc z1 (pos + 1) c1 z' hg1 h2
      · rw [if_neg hc2] at h
        by_cases hc3 : c < 0xF0
        · rw [if_pos hc3] at h
          match h2 : z1.Peek (pos + 1) with
          | none => rw [h2] at h; exact absurd h (by simp)
          | some (c1, z2) =>
            rw [h2] at h
            dsimp only [] at h
            have hg2 := good_peek src acc z1 (pos + 1) c1 z2 hg1 h2
            match h3 : z2.Peek (pos + 2) with
            | none => rw [h3] at h; exact absurd h (by simp)
            | some (c2, z3) =>
              rw [h3] at h
              dsimp only [] at h
              cases h
              exact good_peek src acc z2 (pos + 2) c2 z' hg2 h3
        · rw [if_neg hc3] at h
          match h2 : z1.Peek (pos + 1) with
          | none => rw [h2] at h; exact absurd h (by simp)
          | some (c1, z2) =>
            rw [h2] at h
            dsimp only [] at h
            have hg2 := good_peek src acc z1 (pos + 1) c1 z2 hg1 h2
            match h3 : z2.Peek (pos + 2) with
            | none => rw [h3] at h; exact absurd h (by simp)
            | some (c2, z3) =>
              rw [h3] at h
              dsimp only [] at h
              have hg3 := good_peek src acc z2 (pos + 2) c2 z3 hg2 h3
              match h4 : z3.Peek (pos + 3) with
              | none => rw [h4] at h; exact absurd h (by simp)
              | some (c3, z4) =>
                rw [h4] at h
                dsimp only [] at h
                cases h
                exact good_peek src acc z3 (pos + 3) c3 z' hg3 h4

theorem lexeme_some (z : Lexer) (hinv : LexInv z) :
    z.Lexeme = some ((z.buf.view.take z.pos.toNat).drop z.start.toNat) := by
  obtain ⟨i1, i2, i3, i4⟩ := hinv
  unfold Lexer.Lexeme
  rw [if_pos ⟨i1, i2, by simp only [GoSlice.cap] at i4 ⊢; omega⟩]
  have hvt : z.buf.view.take z.pos.toNat = z.buf.arr.take z.pos.toNat := by
    rw [GoSlice.view, List.take_take]
    congr 1
    exact min_eq_left (by omega)
  rw [hvt]

theorem tailView_decomp (z : Lexer) (hinv : LexInv z) :
    (z.buf.view.take z.pos.toNat).drop z.start.toNat ++ z.buf.view.drop z.pos.toNat
      = tailView z := by
  obtain ⟨i1, i2, i3, i4⟩ := hinv
  rw [tailView]
  exact (drop_split z.buf.view z.start.toNat z.pos.toNat (by omega)).symm

theorem append_glue (acc A B flat src tv : List Byte) (hAB : A ++ B = tv)
    (heq : acc ++ tv ++ flat = src) : acc ++ A ++ B ++ flat = src := by
  rw [← hAB] at heq
  simp only [List.append_assoc] at heq ⊢
  exact heq

theorem good_shift (src acc : List Byte) (z : Lexer) (out : List Byte) (z' : Lexer)
    (hg : Good src acc z) (h : z.Shift = some (out, z')) : Good src (acc ++ out) z' := by
  obtain ⟨hinv, heq⟩ := hg
  obtain ⟨i1, i2, i3, i4⟩ := hinv
  unfold Lexer.Shift at h
  rw [lexeme_some z ⟨i1, i2, i3, i4⟩] at h
  dsimp only [] at h
  cases h
  refine ⟨⟨?_, ?_, ?_, ?_⟩, ?_⟩
  · show (0 : Int) ≤ z.pos
    omega
  · show z.pos ≤ z.pos
    exact le_refl _
  · show z.pos ≤ (z.buf.len : Int)
    exact i3
  · show z.buf.len ≤ z.buf.cap
    exact i4
  · exact append_glue acc _ _ _ src _ (tailView_decomp z ⟨i1, i2, i3, i4⟩) heq

theorem good_skip (src acc : List Byte) (z : Lexer) (out : List Byte) (z' : Lexer)
    (hg : Good src acc z) (h : (z.Lexeme).map (fun l => (l, z.Skip)) = some (out, z')) :
    Good src (acc ++ out) z' := by
  obtain ⟨hinv, heq⟩ := hg
  obtain ⟨i1, i2, i3, i4⟩ := hinv
  rw [lexeme_some z ⟨i1, i2, i3, i4⟩] at h
  dsimp only [Option.map_some'] at h
  cases h
  refine ⟨⟨?_, ?_, ?_, ?_⟩, ?_⟩
  · show (0 : Int) ≤ z.pos
    omega
  · show z.pos ≤ z.pos
    exact le_refl _
  · show z.pos ≤ (z.buf.len : Int)
    exact i3
  · show z.buf.len ≤ z.buf.cap
    exact i4
  · exact append_glue acc _ _ _ src _ (tailView_decomp z ⟨i1, i2, i3, i4⟩) heq

theorem good_stepOut (op : LexOp) (src acc : List Byte) (z : Lexer)
    (out : List Byte) (z' : Lexer) (hg : Good src acc z) (hok : opOk op z)
    (h : stepOut op z = some (out, z')) : Good src (acc ++ out) z' := by
  obtain ⟨hinv, heq⟩ := hg
  obtain ⟨i1, i2, i3, i4⟩ := hinv
  cases op with
  | peek n =>
    simp only [stepOut, stepF, Option.map_map] at h
    match hx : z.Peek n with
    | none => rw [hx] at h; exact absurd h (by simp)
    | some (b, z1) =>
      rw [hx] at h
      simp only [Option.map_some', Function.comp, Option.some.injEq, Prod.mk.injEq] at h
      obtain ⟨ho, hz⟩ := h
      rw [← ho, ← hz]
      simpa using good_peek src acc z n b z1 ⟨⟨i1, i2, i3, i4⟩, heq⟩ hx
  | peekRune n =>
    simp only [stepOut, stepF, Option.map_map] at h
    match hx : z.PeekRune n with
    | none => rw [hx] at h; exact absurd h (by simp)
    | some (r, z1) =>
      rw [hx] at h
      simp only [Option.map_some', Function.comp, Option.some.injEq, Prod.mk.injEq] at h
      obtain ⟨ho, hz⟩ := h
      rw [← ho, ← hz]
      simpa using good_peekRune src acc z n r z1 ⟨⟨i1, i2, i3, i4⟩, heq⟩ hx
  | move n =>
    simp only [stepOut, stepF, Option.map_some', Option.some.injEq, Prod.mk.injEq] at h
    obtain ⟨ho, hz⟩ := h
    rw [← ho, ← hz]
    obtain ⟨hm1, hm2⟩ := hok
    refine ⟨⟨?_, ?_, ?_, ?_⟩, ?_⟩
    · show (0 : Int) ≤ z.start
      exact i1
    · show z.start ≤ z.pos + n
      exact hm1
    · show z.pos + n ≤ (z.buf.len : Int)
      exact hm2
    · exact i4
    · simpa [tailView] using heq
  | mark =>
    simp only [stepOut, stepF, Option.map_some', Option.some.injEq, Prod.mk.injEq] at h
    obtain ⟨ho, hz⟩ := h
    rw [← ho, ← hz]
    exact ⟨⟨i1, i2, i3, i4⟩, by simpa using heq⟩
  | rewind p =>
    simp only [stepOut, stepF, Option.map_some', Option.some.injEq, Prod.mk.injEq] at h
    obtain ⟨ho, hz⟩ := h
    rw [← ho, ← hz]
    obtain ⟨hr1, hr2⟩ := hok
    refine ⟨⟨?_, ?_, ?_, ?_⟩, ?_⟩
    · show (0 : Int) ≤ z.start
      exact i1
    · show z.start ≤ z.start + p
      omega
    · show z.start + p ≤ (z.buf.len : Int)
      exact hr2
    · exact i4
    · simpa [tailView] using heq
  | lexeme =>
    simp only [stepOut, stepF, Option.map_map] at h
    rw [lexeme_some z ⟨i1, i2, i3, i4⟩] at h
    simp only [Option.map_some', Function.comp, Option.some.injEq, Prod.mk.injEq] at h
    obtain ⟨ho, hz⟩ := h
    rw [← ho, ← hz]
    exact ⟨⟨i1, i2, i3, i4⟩, by simpa using heq⟩
  | shift =>
    simp only [stepOut] at h
    exact good_shift src acc z out z' ⟨⟨i1, i2, i3, i4⟩, heq⟩ h
  | skip =>
    simp only [stepOut] at h
    exact good_skip src acc z out z' ⟨⟨i1, i2, i3, i4⟩, heq⟩ h
  | shiftLen =>
    simp only [stepOut, stepF, Option.map_some', Option.some.injEq, Prod.mk.injEq] at h
    obtain ⟨ho, hz⟩ := h
    rw [← ho, ← hz]
    exact ⟨⟨i1, i2, i3, i4⟩, by simpa [tailView] using heq⟩

theorem execC_good (ops : List LexOp) (src : List Byte) :
    ∀ (acc : List Byte) (z : Lexer), Good src acc z →
    ∀ (res : List Byte) (z' : Lexer), execC ops z = some (res, z') →
    Good src (acc ++ res) z' := by
  induction ops with
  | nil =>
    intro acc z hg res z' h
    simp only [execC, Option.some.injEq, Prod.mk.injEq] at h
    obtain ⟨hr, hz⟩ := h
    rw [← hr, ← hz]
    simpa using hg
  | cons op ops ih =>
    intro acc z hg res z' h
    unfold execC at h
    by_cases hok : opOk op z
    · rw [if_pos hok] at h
      match hx : stepOut op z with
      | none => rw [hx] at h; exact absurd h (by simp)
      | some (out, z1) =>
        rw [hx] at h
        dsimp only [] at h
        match hy : execC ops z1 with
        | none => rw [hy] at h; exact absurd h (by simp)
        | some (acc2, z2) =>
          rw [hy] at h
          dsimp only [] at h
          rw [Option.some.injEq, Prod.mk.injEq] at h
          obtain ⟨hr, hz⟩ := h
          rw [← hr, ← hz]
          have hg1 := good_stepOut op src acc z out z1 hg hok hx
          have h2 := ih (acc ++ out) z1 hg1 acc2 z2 hy
          simpa [List.append_assoc] using h2
    · rw [if_neg hok] at h
      exact absurd h (by simp)

/-! ## Peek on an exhausted lexer -/

theorem peek_exhausted (z : Lexer) (off : Int) (he : z.err.isSome)
    (h0 : 0 ≤ off + z.pos) (hcap : z.buf.len ≤ z.buf.cap) :
    z.Peek off = some (z.buf.view.getD (off + z.pos).toNat 0, z) := by
  unfold Lexer.Peek
  by_cases hge : (z.buf.len : Int) ≤ off + z.pos
  · rw [if_pos hge]
    unfold Lexer.read
    rw [if_pos he]
    have hd : z.buf.view.getD (off + z.pos).toNat 0 = 0 := by
      apply List.getD_eq_default
      rw [view_length z.buf hcap]
      omega
    rw [hd]
  · rw [if_neg hge]
    rw [get_view _ _ hcap h0 (by omega)]

/-! ## Peek on a buffered offset, and the two combined -/

theorem peek_buffered (z : Lexer) (off : Int) (hcap : z.buf.len ≤ z.buf.cap)
    (h0 : 0 ≤ off + z.pos) (hlt : off + z.pos < (z.buf.len : Int)) :
    z.Peek off = some (z.buf.view.getD (off + z.pos).toNat 0, z) := by
  unfold Lexer.Peek
  rw [if_neg (by omega)]
  rw [get_view _ _ hcap h0 hlt]

theorem peek_total (z : Lexer) (off : Int) (hcap : z.buf.len ≤ z.buf.cap)
    (h0 : 0 ≤ off + z.pos)
    (hok : z.err.isSome ∨ off + z.pos < (z.buf.len : Int)) :
    z.Peek off = some (z.buf.view.getD (off + z.pos).toNat 0, z) := by
  rcases hok with he | hlt
  · exact peek_exhausted z off he h0 hcap
  · exact peek_buffered z off hcap h0 hlt

/-! ## Claim C2: error suppression in `Err` -/

/-- C2 counterexample: the claim says every terminal source error is
suppressed while `pos < len(buf)`.  After the source `["a"]` fails with a
non-EOF error during a `Peek(1)` refill, the cursor is at 0 with 1 byte
buffered (`pos < len(buf)`), yet `Err` returns the error, not nil:
only `io.EOF` is suppressed by the code. -/
theorem c2_counterexample :
    ((newLexerSize ⟨[[97]], .other 5⟩ 1).bind (fun z => (z.Peek 1).map (·.2))).map
      (fun z => (z.Err, z.pos, z.buf.len)) = some (some (.other 5), 0, 1) ∧
    (some (GoErr.other 5) : Option GoErr) ≠ none := ⟨by decide, by decide⟩

/-- C2 (amended): `Err` returns nil while no error is recorded; once an
error is recorded, `Err` returns nil exactly when the error is
end-of-stream AND the cursor has not reached the end of the buffered
data.  Every other terminal error is returned immediately, regardless of
buffered-but-unread bytes. -/
theorem c2_err_suppression (z : Lexer) :
    (z.err = none → z.Err = none) ∧
    (∀ e, z.err = some e →
      (z.Err = none ↔ e = GoErr.eof ∧ z.pos < (z.buf.len : Int))) := by
  constructor
  · intro h
    unfold Lexer.Err
    rw [h]
    simp
  · intro e he
    unfold Lexer.Err
    rw [he]
    constructor
    · intro h
      by_cases hc : ((some e : Option GoErr) = some GoErr.eof ∧ z.pos < (z.buf.len : Int) : Prop)
      · exact ⟨by injection hc.1, hc.2⟩
      · rw [if_neg hc] at h
        exact absurd h (by simp)
    · rintro ⟨he1, he2⟩
      rw [he1]
      rw [if_pos ⟨rfl, he2⟩]

/-- Witness for C2: on an in-memory lexer (err = EOF) with one byte
buffered and the cursor at 0, `Err` is nil. -/
theorem c2_witness : Lexer.Err (newLexerBytes [97]) = none :=
  ((c2_err_suppression (newLexerBytes [97])).2 GoErr.eof rfl).mpr ⟨rfl, by decide⟩

/-! ## Claim C4: PeekRune length classification -/

/-- C4 counterexample: the claim says every leading byte in 0x80..0xDF
yields length 2 and length 1 happens exactly for bytes below 0x80.  On
the byte 0x80 the code returns length 1 (its first threshold is 0xC0,
not 0x80). -/
theorem c4_counterexample :
    (Lexer.PeekRune (newLexerBytes [128]) 0).map (fun r => r.1.2) = some 1 ∧
    (1 : Nat) ≠ 2 := ⟨by decide, by decide⟩

/-- C4 (amended): on an exhausted lexer (any recorded error) with the
cursor offset in range, `PeekRune` decodes with thresholds 0xC0 / 0xE0 /
0xF0: length 1 exactly when the leading byte `c < 0xC0` (i.e. when its
top two bits are not both 1 — not `c < 0x80` as claimed); length 2 when
`0xC0 ≤ c < 0xE0`; length 3 when `c < 0xF0`; else length 4; continuation
bytes are masked with 0x3F (out-of-range peeks read as 0). -/
theorem c4_peekrune_length (z : Lexer) (n : Int) (he : z.err.isSome)
    (hn : 0 ≤ n + z.pos) (hcap : z.buf.len ≤ z.buf.cap) :
    z.PeekRune n =
      (let b0 := z.buf.view.getD (n + z.pos).toNat 0
       let b1 := z.buf.view.getD (n + 1 + z.pos).toNat 0
       let b2 := z.buf.view.getD (n + 2 + z.pos).toNat 0
       let b3 := z.buf.view.getD (n + 3 + z.pos).toNat 0
       if b0 < 0xC0 then some ((b0, 1), z)
       else if b0 < 0xE0 then
         some (((b0 &&& 0x1F) <<< 6 ||| (b1 &&& 0x3F), 2), z)
       else if b0 < 0xF0 then
         some (((b0 &&& 0x0F) <<< 12 ||| (b1 &&& 0x3F) <<< 6 ||| (b2 &&& 0x3F), 3), z)
       else
         some (((b0 &&& 0x07) <<< 18 ||| (b1 &&& 0x3F) <<< 12 |||
                (b2 &&& 0x3F) <<< 6 ||| (b3 &&& 0x3F), 4), z)) := by
  unfold Lexer.PeekRune
  rw [peek_exhausted z n he hn hcap]
  dsimp only []
  rw [peek_exhausted z (n + 1) he (by omega) hcap]
  dsimp only []
  rw [peek_exhausted z (n + 2) he (by omega) hcap]
  dsimp only []
  rw [peek_exhausted z (n + 3) he (by omega) hcap]

/-- Witness for C4: decoding `E2 82 AC` yields U+20AC with length 3. -/
theorem c4_witness :
    Lexer.PeekRune (newLexerBytes [0xE2, 0x82, 0xAC]) 0 =
      some ((0x20AC, 3), newLexerBytes [0xE2, 0x82, 0xAC]) := by
  rw [c4_peekrune_length (newLexerBytes [0xE2, 0x82, 0xAC]) 0 (by decide) (by decide) (by decide)]
  decide

/-! ## Claim C9: `swap` always returns an empty buffer of enough capacity -/

/-- C9: for every pool state, retired buffer and requested (nonnegative)
minimum capacity, `swap` returns a buffer of length 0 and capacity at
least the request, on all three paths (first-fit reuse, in-place reuse,
fresh allocation). -/
theorem c9_swap_returns (z : BufferPool) (oldBuf : GoSlice) (size : Int)
    (hsize : 0 ≤ size) :
    ∃ nb z', z.swap oldBuf size = some (nb, z') ∧ nb.len = 0 ∧ size ≤ (nb.cap : Int) :=
  swap_total z oldBuf size hsize

/-- Witness for C9 at a concrete pool and size. -/
theorem c9_witness :
    ∃ nb z', BufferPool.swap ⟨[], 0, 0, 0⟩ ⟨[97], 1⟩ 4 = some (nb, z') ∧
      nb.len = 0 ∧ (4 : Int) ≤ (nb.cap : Int) :=
  c9_swap_returns ⟨[], 0, 0, 0⟩ ⟨[97], 1⟩ 4 (by decide)

/-! ## Claim C5: ShiftLen across a refill -/

/-- C5 failing trace: source delivers "abc" then "def" into a 3-byte
lexer.  `Move 3; Shift` commits "abc"; `ShiftLen` reports 3.  A `Peek 0`
triggers a refill that renumbers `start` from 3 to 0 but leaves
`prevStart` at 3.  `Move 3; Shift` then commits the 3 bytes "def", yet
the second `ShiftLen` returns `start - prevStart = 3 - 3 = 0`, not 3:
the code contradicts its own documentation ("the number of bytes moved
since the last call to ShiftLen") and under-reports the count meant to
drive `pool.free`. -/
theorem c5_shiftlen_trace :
    ((newLexerSize ⟨[[97, 98, 99], [100, 101, 102]], .eof⟩ 3).bind (fun z0 =>
      (Lexer.Shift (z0.Move 3)).bind (fun s1 =>
        ((s1.2.ShiftLen).2.Peek 0).bind (fun p1 =>
          (Lexer.Shift (p1.2.Move 3)).map (fun s2 =>
            ((s2.2.ShiftLen).1, s2.1.length))))))
      = some (0, 3) ∧ ((0 : Int) ≠ 3) := ⟨by decide, by decide⟩

/-! ## Claim C6: the cursor invariant -/

/-- C6 counterexample: the claim asserts the invariant after every
operation with any argument; `Move (-1)` from a freshly constructed
in-memory lexer drives `pos` to −1, violating `0 ≤ start ≤ pos`. -/
theorem c6_counterexample :
    LexInv (newLexerBytes [97]) ∧
    stepF (.move (-1)) (newLexerBytes [97]) = some ((newLexerBytes [97]).Move (-1)) ∧
    ¬ LexInv ((newLexerBytes [97]).Move (-1)) := ⟨by decide, by decide, by decide⟩

/-- C6 (amended): every public operation that returns without a panic
preserves `0 ≤ start ≤ pos ≤ len(buf) ≤ cap(buf)`, provided `Move`
lands the cursor inside `[start, len(buf)]` and `Rewind` gets a
position `p` with `0 ≤ p` and `start + p ≤ len(buf)`; the remaining
operations (Peek, PeekRune, Pos, Lexeme, Shift, ShiftLen, Skip) need no
argument restriction. -/
theorem c6_invariant_preserved (z : Lexer) (op : LexOp) (z' : Lexer)
    (hinv : LexInv z) (hok : opOk op z) (h : stepF op z = some z') : LexInv z' := by
  have hg : Good ([] ++ tailView z ++ flatR z.rdr) [] z := ⟨hinv, rfl⟩
  cases op with
  | shift =>
    simp only [stepF] at h
    match hx : z.Shift with
    | none => rw [hx] at h; exact absurd h (by simp)
    | some (out, z1) =>
      rw [hx] at h
      simp only [Option.map_some', Option.some.injEq] at h
      rw [← h]
      exact (good_shift _ [] z out z1 hg hx).1
  | skip =>
    simp only [stepF, Option.some.injEq] at h
    have hx : (z.Lexeme).map (fun l => (l, z.Skip)) =
        some ((z.buf.view.take z.pos.toNat).drop z.start.toNat, z.Skip) := by
      rw [lexeme_some z hinv]
      rfl
    rw [← h]
    exact (good_skip _ [] z _ z.Skip hg hx).1
  | peek n =>
    simp only [stepF] at h
    match hx : z.Peek n with
    | none => rw [hx] at h; exact absurd h (by simp)
    | some (b, z1) =>
      rw [hx] at h
      simp only [Option.map_some', Option.some.injEq] at h
      rw [← h]
      exact (good_peek _ [] z n b z1 hg hx).1
  | peekRune n =>
    simp only [stepF] at h
    match hx : z.PeekRune n with
    | none => rw [hx] at h; exact absurd h (by simp)
    | some (r, z1) =>
      rw [hx] at h
      simp only [Option.map_some', Option.some.injEq] at h
      rw [← h]
      exact (good_peekRune _ [] z n r z1 hg hx).1
  | move n =>
    simp only [stepF, Option.some.injEq] at h
    obtain ⟨i1, i2, i3, i4⟩ := hinv
    obtain ⟨hm1, hm2⟩ := hok
    rw [← h]
    exact ⟨i1, hm1, hm2, i4⟩
  | mark =>
    simp only [stepF, Option.some.injEq] at h
    rw [← h]
    exact hinv
  | rewind p =>
    simp only [stepF, Option.some.injEq] at h
    obtain ⟨i1, i2, i3, i4⟩ := hinv
    obtain ⟨hr1, hr2⟩ := hok
    rw [← h]
    exact ⟨i1, by simpa [Lexer.Rewind] using hr1, hr2, i4⟩
  | lexeme =>
    simp only [stepF] at h
    rw [lexeme_some z hinv] at h
    simp only [Option.map_some', Option.some.injEq] at h
    rw [← h]
    exact hinv
  | shiftLen =>
    simp only [stepF, Option.some.injEq] at h
    rw [← h]
    exact hinv

/-- Witness for C6: `Move 1` inside the buffered range preserves the
invariant on a concrete in-memory lexer. -/
theorem c6_witness : LexInv ((newLexerBytes [97, 98]).Move 1) :=
  c6_invariant_preserved (newLexerBytes [97, 98]) (.move 1)
    ((newLexerBytes [97, 98]).Move 1) (by decide) (by decide) rfl

/-! ## Claim C1: Peek never fails -/

/-- C1 counterexample: the claim says `Peek(n)` returns normally for
every state and offset, *including* when a refill's single source read
returns fewer bytes than needed.  Source: "ab" buffered (capacity 4),
then a single further chunk "c".  `Peek 10` triggers a refill whose one
read delivers 1 byte, leaving offset 10 unavailable; the final
`z.buf[pos]` index is out of range and the code panics (modelled as
`none`). -/
theorem c1_counterexample :
    ((newLexerSize ⟨[[97, 98], [99]], .eof⟩ 4).map (fun z => z.Peek 10)) = some none := by
  decide

/-- C1 (amended): under the cursor invariant and `n ≥ 0`:
(1) when `cursor+n` is already buffered, `Peek n` returns that byte
without changing state; (2) when an error is already recorded, `Peek n`
returns normally with the buffered byte at `cursor+n`, or 0 when there
is none; (3) whenever a refill returns at all, the byte is the one at
the renumbered offset in the new buffer (0 when past the data); and
(4) the refill fails (Go: index-out-of-range panic) exactly when the
single source read delivers at least one byte but too few to make
offset `cursor+n` available; (5) `PeekRune n` returns normally with the
codepoint decoded (by the 0xC0/0xE0/0xF0 leading-byte thresholds, 0x3F
continuation masks) from the bytes at offsets `cursor+n ..
cursor+n+3`, reading 0 for each unavailable byte and leaving the state
unchanged, whenever those offsets are buffered or an error is already
recorded; and (6) `PeekRune`, built from such Peeks, inherits the
short-read refill panic: on the buffered "ab" (capacity 4) with one
further chunk "c", `PeekRune 10` fails just as `Peek 10` does. -/
theorem c1_peek_refill (z : Lexer) (n : Int) (hinv : LexInv z) (hn : 0 ≤ n) :
    (n + z.pos < (z.buf.len : Int) →
      z.Peek n = some (z.buf.view.getD (n + z.pos).toNat 0, z)) ∧
    (z.err.isSome →
      z.Peek n = some (z.buf.view.getD (n + z.pos).toNat 0, z)) ∧
    (z.err = none → (z.buf.len : Int) ≤ n + z.pos →
      ∀ b z', z.Peek n = some (b, z') →
        b = z'.buf.view.getD (n + z.pos - z.start).toNat 0) ∧
    (z.err = none → (z.buf.len : Int) ≤ n + z.pos →
      (z.Peek n = none ↔
        ∃ buf0 pool1,
          z.pool.swap ⟨z.buf.arr, z.start.toNat⟩ (readCap z (n + z.pos)) = some (buf0, pool1) ∧
          (Reader.read z.rdr (buf0.cap - (z.buf.len - z.start.toNat))).1 ≠ [] ∧
          ((afterRefill z buf0 pool1).buf.len : Int) ≤ n + z.pos - z.start)) ∧
    ((z.err.isSome ∨ n + z.pos + 3 < (z.buf.len : Int)) →
      z.PeekRune n =
        (let b0 := z.buf.view.getD (n + z.pos).toNat 0
         let b1 := z.buf.view.getD (n + 1 + z.pos).toNat 0
         let b2 := z.buf.view.getD (n + 2 + z.pos).toNat 0
         let b3 := z.buf.view.getD (n + 3 + z.pos).toNat 0
         if b0 < 0xC0 then some ((b0, 1), z)
         else if b0 < 0xE0 then
           some (((b0 &&& 0x1F) <<< 6 ||| (b1 &&& 0x3F), 2), z)
         else if b0 < 0xF0 then
           some (((b0 &&& 0x0F) <<< 12 ||| (b1 &&& 0x3F) <<< 6 ||| (b2 &&& 0x3F), 3), z)
         else
           some (((b0 &&& 0x07) <<< 18 ||| (b1 &&& 0x3F) <<< 12 |||
                  (b2 &&& 0x3F) <<< 6 ||| (b3 &&& 0x3F), 4), z))) ∧
    ((newLexerSize ⟨[[97, 98], [99]], .eof⟩ 4).map (fun z0 => z0.PeekRune 10) =
      some none) := by
  obtain ⟨i1, i2, i3, i4⟩ := hinv
  refine ⟨?_, ?_, ?_, ?_, ?_, ?_⟩
  · intro hlt
    unfold Lexer.Peek
    rw [if_neg (by omega)]
    rw [get_view _ _ i4 (by omega) hlt]
  · intro he
    exact peek_exhausted z n he (by omega) i4
  · intro herr hge b z' h
    unfold Lexer.Peek at h
    rw [if_pos hge] at h
    obtain ⟨buf0, pool1, hswap, hd, heof, hin, hout⟩ :=
      read_spec z (n + z.pos) ⟨i1, i2, i3, i4⟩ herr hge
    obtain ⟨hview, hlen, hcap', hinv1⟩ :=
      afterRefill_spec z buf0 pool1 ⟨i1, i2, i3, i4⟩ hd
    obtain ⟨j1, j2, j3, j4⟩ := hinv1
    by_cases hbs : (Reader.read z.rdr (buf0.cap - (z.buf.len - z.start.toNat))).1 = []
    · rw [heof hbs] at h
      cases h
      symm
      apply List.getD_eq_default
      have hbs0 : (Reader.read z.rdr (buf0.cap - (z.buf.len - z.start.toNat))).1.length = 0 := by
        rw [hbs]
        rfl
      rw [view_length _ j4, hlen, hbs0]
      omega
    · by_cases hlt : n + z.pos - z.start < ((afterRefill z buf0 pool1).buf.len : Int)
      · rw [hin hbs hlt] at h
        cases h
        rfl
      · rw [hout hbs (by omega)] at h
        exact absurd h (by simp)
  · intro herr hge
    obtain ⟨buf0, pool1, hswap, hd, heof, hin, hout⟩ :=
      read_spec z (n + z.pos) ⟨i1, i2, i3, i4⟩ herr hge
    constructor
    · intro hnone
      unfold Lexer.Peek at hnone
      rw [if_pos hge] at hnone
      by_cases hbs : (Reader.read z.rdr (buf0.cap - (z.buf.len - z.start.toNat))).1 = []
      · rw [heof hbs] at hnone
        exact absurd hnone (by simp)
      · by_cases hlt : n + z.pos - z.start < ((afterRefill z buf0 pool1).buf.len : Int)
        · rw [hin hbs hlt] at hnone
          exact absurd hnone (by simp)
        · exact ⟨buf0, pool1, hswap, hbs, by omega⟩
    · rintro ⟨buf0', pool1', hswap', hbs', hge'⟩
      rw [hswap] at hswap'
      rw [Option.some.injEq, Prod.mk.injEq] at hswap'
      obtain ⟨hb, hp⟩ := hswap'
      rw [← hb] at hbs' hge'
      rw [← hp] at hge'
      unfold Lexer.Peek
      rw [if_pos hge]
      exact hout hbs' hge'
  · intro hok
    unfold Lexer.PeekRune
    rw [peek_total z n i4 (by omega) (hok.imp id (fun hb => by omega))]
    dsimp only []
    rw [peek_total z (n + 1) i4 (by omega) (hok.imp id (fun hb => by omega))]
    dsimp only []
    rw [peek_total z (n + 2) i4 (by omega) (hok.imp id (fun hb => by omega))]
    dsimp only []
    rw [peek_total z (n + 3) i4 (by omega) (hok.imp id (fun hb => by omega))]
  · decide

/-- Witness for C1: on an in-memory one-byte lexer, `Peek 0` returns the
buffered byte unchanged, and `PeekRune 0` returns it decoded as a
length-1 codepoint, also unchanged. -/
theorem c1_witness :
    (newLexerBytes [97]).Peek 0 = some (97, newLexerBytes [97]) ∧
    (newLexerBytes [97]).PeekRune 0 = some ((97, 1), newLexerBytes [97]) := by
  constructor
  · rw [(c1_peek_refill (newLexerBytes [97]) 0 (by decide) (by decide)).1 (by decide)]
    decide
  · rw [(c1_peek_refill (newLexerBytes [97]) 0 (by decide) (by decide)).2.2.2.2.1
      (Or.inl (by decide))]
    decide

/-! ## Claim C3: Shift concatenation reproduces the source -/

/-- C3 counterexample: the claim quantifies over every interleaving of
Peek/Move/Shift/Skip.  On the in-memory source "abc": `Move 2; Skip;
Move 1; Shift` leaves the cursor at 3, but the concatenation of all
Shift results is just "c" — the two bytes discarded by Skip are a gap,
so the concatenation does not reproduce the source up to the cursor. -/
theorem c3_counterexample :
    (Lexer.Shift ((((newLexerBytes [97, 98, 99]).Move 2).Skip).Move 1)).map
        (fun s => (s.1, s.2.pos)) = some ([99], 3) ∧
    ([99] : List Byte) ≠ ([97, 98, 99] : List Byte).take 3 := ⟨by decide, by decide⟩

/-- C3 (amended): for every source, construction size and interleaving
of operations executed under the range discipline (`Move`/`Rewind` keep
the cursor inside the buffered window; no operation panics), the bytes
committed — by Shift *and* by Skip, in call order — followed by the
current lexeme form exactly a prefix of the source content: no gaps, no
duplicates, and in particular the bytes between token-start and cursor
survive every buffer-swapping refill intact. -/
theorem c3_shift_concat (chunks : List (List Byte)) (e : GoErr) (size : Int)
    (ops : List LexOp) (z0 : Lexer) (hz0 : newLexerSize ⟨chunks, e⟩ size = some z0)
    (res : List Byte) (z' : Lexer) (h : execC ops z0 = some (res, z'))
    (lex : List Byte) (hlex : z'.Lexeme = some lex) :
    res ++ lex = chunks.flatten.take (res.length + lex.length) := by
  unfold newLexerSize at hz0
  by_cases hs : (0 : Int) ≤ size
  · rw [if_pos hs] at hz0
    dsimp only [] at hz0
    set zinit : Lexer :=
      { rdr := ⟨chunks, e⟩, err := none, pool := ⟨[], 0, 0, 0⟩,
        buf := ⟨List.replicate size.toNat 0, 0⟩,
        start := 0, pos := 0, prevStart := 0 } with hzinit
    have hginit : Good chunks.flatten [] zinit := by
      refine ⟨⟨le_refl _, le_refl _, by simp, by simp⟩, ?_⟩
      simp [tailView, GoSlice.view, flatR]
    match hx : zinit.Peek 0 with
    | none => rw [hx] at hz0; exact absurd hz0 (by simp)
    | some (b, z0') =>
      rw [hx] at hz0
      simp only [Option.map_some', Option.some.injEq] at hz0
      rw [← hz0] at h
      have hg0 : Good chunks.flatten [] z0' := good_peek _ [] zinit 0 b z0' hginit hx
      have hg' : Good chunks.flatten res z' := by
        simpa using execC_good ops chunks.flatten [] z0' hg0 res z' h
      obtain ⟨hinv', heq⟩ := hg'
      have hlexeq : lex = (z'.buf.view.take z'.pos.toNat).drop z'.start.toNat := by
        rw [lexeme_some z' hinv'] at hlex
        exact (Option.some.inj hlex).symm
      have hdecomp := tailView_decomp z' hinv'
      rw [← hdecomp] at heq
      have hsplit : (res ++ lex) ++
          (z'.buf.view.drop z'.pos.toNat ++ flatR z'.rdr) = chunks.flatten := by
        rw [hlexeq]
        simp only [List.append_assoc] at heq ⊢
        exact heq
      have hl : (res ++ lex).length = res.length + lex.length := by simp
      rw [← hsplit, ← hl, List.take_left]
  · rw [if_neg hs] at hz0
    exact absurd hz0 (by simp)

/-- Witness for C3: source "ab","c" into a 2-byte lexer; `Move 2; Shift;
Peek 0 (refill); Move 1; Shift` commits "abc", which is exactly the
3-byte prefix of the source content. -/
theorem c3_witness :
    ([97, 98, 99] : List Byte) ++ [] =
      ([[97, 98], [99]] : List (List Byte)).flatten.take
        (([97, 98, 99] : List Byte).length + ([] : List Byte).length) :=
  c3_shift_concat [[97, 98], [99]] .eof 2 [.move 2, .shift, .peek 0, .move 1, .shift]
    ⟨⟨[[99]], .eof⟩, none, ⟨[], 0, 0, 0⟩, ⟨[97, 98], 2⟩, 0, 0, 0⟩ (by decide)
    [97, 98, 99]
    ⟨⟨[], .eof⟩, none, ⟨[⟨⟨[97, 98], 2⟩, 0, true⟩], 1, 1, 0⟩, ⟨[99, 0], 1⟩, 1, 1, 0⟩
    (by decide) [] (by decide)

/-! ## Pool chain lemmas -/

theorem blk_set_same (pool : List Block) (j : Nat) (b : Block) (hj : j < pool.length) :
    blk (pool.set j b) j = b := by
  simp [blk, List.getD, List.getElem?_set_self hj]

theorem blk_set_other (pool : List Block) (j : Nat) (b : Block) (i : Nat) (hij : j ≠ i) :
    blk (pool.set j b) i = blk pool i := by
  simp [blk, List.getD, List.getElem?_set_ne hij]

theorem blk_append (pool ext : List Block) (i : Nat) (hi : i < pool.length) :
    blk (pool ++ ext) i = blk pool i := by
  simp [blk, List.getD, List.getElem?_append_left hi]

theorem chainSeg_active (pool : List Block) (m : Nat) :
    ∀ (t : Nat) (L : List Nat), chainSeg pool m t L →
    ∀ i ∈ L, (blk pool i).active = true ∧ i < pool.length := by
  intro t L
  induction L generalizing t with
  | nil => intro _ i hi; exact absurd hi (by simp)
  | cons l rest ih =>
    intro h i hi
    obtain ⟨h1, h2, h3, h4⟩ := h
    rcases List.mem_cons.mp hi with he | hr
    · rw [he]; exact ⟨h3, h2⟩
    · exact ih _ h4 i hr

theorem chainSeg_congr (pool pool2 : List Block) (m : Nat)
    (hlen : pool2.length = pool.length) :
    ∀ (t : Nat) (L : List Nat), chainSeg pool m t L →
    (∀ i ∈ L, blk pool2 i = blk pool i) → chainSeg pool2 m t L := by
  intro t L
  induction L generalizing t with
  | nil => intro h _; exact h
  | cons l rest ih =>
    intro h hsame
    obtain ⟨h1, h2, h3, h4⟩ := h
    have hl : blk pool2 l = blk pool l := hsame l (by simp)
    exact ⟨h1, by omega, by rw [hl]; exact h3,
      by rw [hl]; exact ih _ h4 (fun i hi => hsame i (by simp [hi]))⟩

theorem chainSeg_append_pool (pool ext : List Block) (m : Nat) :
    ∀ (t : Nat) (L : List Nat), chainSeg pool m t L → chainSeg (pool ++ ext) m t L := by
  intro t L
  induction L generalizing t with
  | nil => intro h; exact h
  | cons l rest ih =>
    intro h
    obtain ⟨h1, h2, h3, h4⟩ := h
    have hl : blk (pool ++ ext) l = blk pool l := blk_append pool ext l h2
    exact ⟨h1, by simp; omega, by rw [hl]; exact h3, by rw [hl]; exact ih _ h4⟩

theorem chainSeg_comp (pool : List Block) (m k : Nat) :
    ∀ (t : Nat) (L1 L2 : List Nat), chainSeg pool k t L1 → chainSeg pool m k L2 →
    chainSeg pool m t (L1 ++ L2) := by
  intro t L1 L2 h1 h2
  induction L1 generalizing t with
  | nil => rw [h1]; exact h2
  | cons l rest ih =>
    obtain ⟨g1, g2, g3, g4⟩ := h1
    exact ⟨g1, g2, g3, ih _ g4⟩

theorem chainHead_cons (l : Nat) (rest : List Nat) (hne : rest ≠ []) :
    chainHead (l :: rest) = chainHead rest := by
  match rest with
  | [] => exact absurd rfl hne
  | r :: rs => rfl

theorem chainHead_snoc (L : List Nat) (i : Nat) : chainHead (L ++ [i]) = i + 1 := by
  induction L with
  | nil => rfl
  | cons l rest ih =>
    rw [List.cons_append, chainHead_cons l (rest ++ [i]) (by simp), ih]

theorem chainSeg_last (pool : List Block) :
    ∀ (t : Nat) (L : List Nat), chainSeg pool 0 t L → L ≠ [] →
    (chainHead L - 1) ∈ L ∧ (blk pool (chainHead L - 1)).next = 0 := by
  intro t L
  induction L generalizing t with
  | nil => intro _ hne; exact absurd rfl hne
  | cons l rest ih =>
    intro h _
    obtain ⟨h1, h2, h3, h4⟩ := h
    by_cases hne2 : rest = []
    · subst hne2
      constructor
      · show (l + 1 - 1) ∈ [l]
        simp
      · show (blk pool (l + 1 - 1)).next = 0
        simpa using h4
    · obtain ⟨hm, hn⟩ := ih _ h4 hne2
      rw [chainHead_cons l rest hne2]
      exact ⟨List.mem_cons_of_mem l hm, hn⟩

theorem chainSeg_relink (pool pool2 : List Block) (mnew : Nat)
    (hlen : pool2.length = pool.length) :
    ∀ (t : Nat) (L : List Nat), chainSeg pool 0 t L → L.Nodup → L ≠ [] →
    (∀ j ∈ L, j ≠ chainHead L - 1 → blk pool2 j = blk pool j) →
    blk pool2 (chainHead L - 1) = { blk pool (chainHead L - 1) with next := mnew } →
    chainSeg pool2 mnew t L := by
  intro t L
  induction L generalizing t with
  | nil => intro _ _ hne; exact absurd rfl hne
  | cons l rest ih =>
    intro h hnd _ hother hlast
    obtain ⟨h1, h2, h3, h4⟩ := h
    by_cases hne2 : rest = []
    · subst hne2
      have hlast' : blk pool2 l = { blk pool l with next := mnew } := hlast
      refine ⟨h1, by omega, by rw [hlast']; exact h3, ?_⟩
      rw [hlast']
      exact rfl
    · have hch : chainHead (l :: rest) = chainHead rest := chainHead_cons l rest hne2
      have hlmem : (chainHead rest - 1) ∈ rest := (chainSeg_last pool _ rest h4 hne2).1
      have hlne : l ≠ chainHead rest - 1 := by
        intro hcon
        have hlr : l ∈ rest := by rw [hcon]; exact hlmem
        exact absurd hlr (List.Nodup.not_mem hnd)
      have hbl : blk pool2 l = blk pool l :=
        hother l (by simp) (by rw [hch]; exact hlne)
      refine ⟨h1, by omega, by rw [hbl]; exact h3, ?_⟩
      rw [hbl]
      apply ih _ h4 (List.Nodup.of_cons hnd) hne2
      · intro jj hj hjne
        exact hother jj (by simp [hj]) (by rw [hch]; exact hjne)
      · rw [← hch]
        exact hlast

theorem nodup_bound (L : List Nat) (M : Nat) (hnd : L.Nodup)
    (hb : ∀ i ∈ L, i < M) : L.length ≤ M := by
  classical
  have h1 : L.toFinset ⊆ Finset.range M := by
    intro i hi
    rw [Finset.mem_range]
    exact hb i (List.mem_toFinset.mp hi)
  have h2 := Finset.card_le_card h1
  rw [Finset.card_range] at h2
  rw [List.toFinset_card_of_nodup hnd] at h2
  exact h2

theorem chainHead_ne_zero (L : List Nat) (hne : L ≠ []) : chainHead L ≠ 0 := by
  induction L with
  | nil => exact absurd rfl hne
  | cons l rest ih =>
    by_cases h2 : rest = []
    · subst h2
      show l + 1 ≠ 0
      omega
    · rw [chainHead_cons l rest h2]
      exact ih h2

theorem intern_eq (z : BufferPool) (i : Nat) (old : GoSlice) :
    (z.intern i old).2 =
      { pool := (if z.head ≠ 0
                 then (z.pool.set i ⟨old, 0, true⟩).set (z.head - 1)
                      { blk (z.pool.set i ⟨old, 0, true⟩) (z.head - 1) with next := i + 1 }
                 else z.pool.set i ⟨old, 0, true⟩),
        head := i + 1,
        tail := if z.tail = 0 then i + 1 else z.tail,
        pos := z.pos } := rfl

theorem intern_wf (z : BufferPool) (i : Nat) (old : GoSlice) (L : List Nat)
    (hL : chainLinks z.pool z.tail L) (hhead : z.head = chainHead L) (hnd : L.Nodup)
    (hi : i < z.pool.length) (hnotin : i ∉ L) :
    chainLinks (z.intern i old).2.pool (z.intern i old).2.tail (L ++ [i]) ∧
    (z.intern i old).2.head = chainHead (L ++ [i]) ∧
    (L ++ [i]).Nodup ∧
    (z.intern i old).2.pos = z.pos ∧
    (z.intern i old).2.pool.length = z.pool.length ∧
    (∀ j, blkActive (z.intern i old).2.pool j = false → blkActive z.pool j = false) ∧
    (∀ j ∈ L, (blk (z.intern i old).2.pool j).buf = (blk z.pool j).buf) ∧
    blk (z.intern i old).2.pool i = ⟨old, 0, true⟩ ∧
    ((z.intern i old).2.tail = if z.tail = 0 then i + 1 else z.tail) := by
  have hnodup2 : (L ++ [i]).Nodup := by
    rw [List.nodup_append]
    exact ⟨hnd, List.nodup_singleton i, by simpa using hnotin⟩
  rw [intern_eq]
  by_cases hLe : L = []
  · subst hLe
    have ht0 : z.tail = 0 := hL
    have hh0 : ¬ (z.head ≠ 0) := by
      rw [hhead]
      simp [chainHead]
    rw [if_neg hh0, if_pos ht0]
    have hblki : blk (z.pool.set i ⟨old, 0, true⟩) i = ⟨old, 0, true⟩ :=
      blk_set_same z.pool i ⟨old, 0, true⟩ hi
    refine ⟨?_, rfl, hnodup2, rfl, by simp, ?_, by simp, hblki, rfl⟩
    · show chainSeg (z.pool.set i ⟨old, 0, true⟩) 0 (i + 1) [i]
      refine ⟨rfl, by simpa using hi, by rw [hblki], ?_⟩
      rw [hblki]
      exact rfl
    · intro j hj
      by_cases hji : j = i
      · rw [hji] at hj
        unfold blkActive at hj
        rw [hblki] at hj
        exact absurd hj (by simp)
      · unfold blkActive at hj ⊢
        rw [blk_set_other z.pool i _ j (fun hc => hji hc.symm)] at hj
        exact hj
  · have hil : (chainHead L - 1) ∈ L ∧ (blk z.pool (chainHead L - 1)).next = 0 :=
      chainSeg_last z.pool z.tail L hL hLe
    have hilne : chainHead L - 1 ≠ i := by
      intro hcon
      rw [hcon] at hil
      exact absurd hil.1 hnotin
    have hhne : z.head ≠ 0 := by
      rw [hhead]
      exact chainHead_ne_zero L hLe
    have htne : ¬ (z.tail = 0) := by
      cases L with
      | nil => exact absurd rfl hLe
      | cons l rest =>
        obtain ⟨g1, _, _, _⟩ := hL
        omega
    rw [if_pos hhne, if_neg htne]
    have hlen1 : (z.pool.set i ⟨old, 0, true⟩).length = z.pool.length := by simp
    have hblki1 : blk (z.pool.set i ⟨old, 0, true⟩) i = ⟨old, 0, true⟩ :=
      blk_set_same z.pool i ⟨old, 0, true⟩ hi
    have hblkj1 : ∀ j, j ≠ i → blk (z.pool.set i ⟨old, 0, true⟩) j = blk z.pool j := by
      intro j hj
      exact blk_set_other z.pool i ⟨old, 0, true⟩ j (fun hc => hj hc.symm)
    set pool1 := z.pool.set i ⟨old, 0, true⟩ with hpool1
    set pool2 := pool1.set (z.head - 1) { blk pool1 (z.head - 1) with next := i + 1 } with hpool2
    have hlen2 : pool2.length = z.pool.length := by
      rw [hpool2]
      simp [hlen1]
    have hilbound : chainHead L - 1 < pool1.length := by
      rw [hlen1]
      exact (chainSeg_active z.pool 0 z.tail L hL _ hil.1).2
    have hil1 : blk pool1 (z.head - 1) = blk z.pool (chainHead L - 1) := by
      rw [hhead]
      exact hblkj1 _ hilne
    have hix : z.head - 1 = chainHead L - 1 := by rw [hhead]
    have hblk2_il : blk pool2 (chainHead L - 1) =
        { blk z.pool (chainHead L - 1) with next := i + 1 } := by
      rw [hpool2, ← hix]
      rw [blk_set_same pool1 _ _ (by rw [hix]; exact hilbound)]
      rw [hil1, hix]
    have hblk2_other : ∀ j, j ≠ chainHead L - 1 → j ≠ i → blk pool2 j = blk z.pool j := by
      intro j hj1 hj2
      rw [hpool2]
      rw [blk_set_other pool1 _ _ j (by rw [hhead]; exact fun hc => hj1 hc.symm)]
      exact hblkj1 j hj2
    have hblk2_i : blk pool2 i = ⟨old, 0, true⟩ := by
      rw [hpool2]
      rw [blk_set_other pool1 _ _ i (by rw [hhead]; exact fun hc => hilne hc)]
      exact hblki1
    have hseg1 : chainSeg pool2 (i + 1) z.tail L := by
      apply chainSeg_relink z.pool pool2 (i + 1) hlen2 z.tail L hL hnd hLe
      · intro j hjL hjne
        apply hblk2_other j hjne
        intro hc
        rw [hc] at hjL
        exact absurd hjL hnotin
      · exact hblk2_il
    have hseg2 : chainSeg pool2 0 (i + 1) [i] := by
      refine ⟨rfl, by rw [hlen2]; exact hi, by rw [hblk2_i], ?_⟩
      rw [hblk2_i]
      exact rfl
    refine ⟨?_, ?_, hnodup2, rfl, hlen2, ?_, ?_, hblk2_i, rfl⟩
    · show chainSeg pool2 0 z.tail (L ++ [i])
      exact chainSeg_comp pool2 0 (i + 1) z.tail L [i] hseg1 hseg2
    · show i + 1 = chainHead (L ++ [i])
      rw [chainHead_snoc]
    · intro j hj
      by_cases hji : j = i
      · rw [hji] at hj
        unfold blkActive at hj
        rw [hblk2_i] at hj
        exact absurd hj (by simp)
      · by_cases hjil : j = chainHead L - 1
        · unfold blkActive at hj ⊢
          rw [hjil] at hj ⊢
          rw [hblk2_il] at hj
          exact hj
        · unfold blkActive at hj ⊢
          rw [hblk2_other j hjil hji] at hj
          exact hj
    · intro j hjL
      by_cases hjil : j = chainHead L - 1
      · rw [hjil, hblk2_il]
      · rw [hblk2_other j hjil (fun hc => hnotin (hc ▸ hjL))]

/-! ## `free` loop lemmas -/

theorem popCount_take_sum (p : Int) (lens : List Nat) (hp : 0 ≤ p) :
    (((lens.take (popCount p lens)).sum : Int)) ≤ p := by
  induction lens generalizing p with
  | nil => simpa using hp
  | cons l ls ih =>
    unfold popCount
    by_cases hc : (l : Int) ≤ p
    · rw [if_pos hc]
      have := ih (p - l) (by omega)
      simp only [List.take_succ_cons, List.sum_cons]
      push_cast at this ⊢
      omega
    · rw [if_neg hc]
      simpa using hp

theorem popCount_exit (p : Int) (lens : List Nat) (l' : Nat) (ls' : List Nat)
    (h : lens.drop (popCount p lens) = l' :: ls') :
    p - (((lens.take (popCount p lens)).sum : Int)) < l' := by
  induction lens generalizing p with
  | nil => simp at h
  | cons l ls ih =>
    unfold popCount at h ⊢
    by_cases hc : (l : Int) ≤ p
    · rw [if_pos hc] at h ⊢
      simp only [List.drop_succ_cons] at h
      have := ih (p - l) h
      simp only [List.take_succ_cons, List.sum_cons]
      push_cast at this ⊢
      omega
    · rw [if_neg hc] at h ⊢
      simp only [List.drop_zero] at h
      cases h
      simpa using hc

theorem chainLens_congr (pool pool2 : List Block) (L : List Nat)
    (h : ∀ j ∈ L, blk pool2 j = blk pool j) :
    chainLens pool2 L = chainLens pool L := by
  unfold chainLens
  apply List.map_congr_left
  intro j hj
  rw [h j hj]

theorem freeLoop_spec : ∀ (fuel : Nat) (z : BufferPool) (L : List Nat),
    chainLinks z.pool z.tail L → L.Nodup → L.length < fuel →
    chainLinks (freeLoop fuel z).pool (freeLoop fuel z).tail
      (L.drop (popCount z.pos (chainLens z.pool L))) ∧
    (freeLoop fuel z).pos =
      z.pos - (((chainLens z.pool L).take (popCount z.pos (chainLens z.pool L))).sum : Int) ∧
    (freeLoop fuel z).head = z.head ∧
    (freeLoop fuel z).pool.length = z.pool.length ∧
    (∀ j, j ∉ L.take (popCount z.pos (chainLens z.pool L)) →
      blk (freeLoop fuel z).pool j = blk z.pool j) ∧
    (∀ j ∈ L.take (popCount z.pos (chainLens z.pool L)),
      blkActive (freeLoop fuel z).pool j = false) := by
  intro fuel
  induction fuel with
  | zero => intro z L _ _ hf; omega
  | succ fuel ih =>
    intro z L hL hnd hf
    match L, hL with
    | [], hL =>
      have ht0 : z.tail = 0 := hL
      have hstop : freeLoop (fuel + 1) z = z := by
        unfold freeLoop
        rw [if_neg (by rw [ht0]; simp)]
      rw [hstop]
      simp [chainLens, popCount, hL]
    | l :: rest, hL =>
      obtain ⟨h1, h2, h3, h4⟩ := hL
      have hlens : chainLens z.pool (l :: rest) =
          (blk z.pool l).buf.len :: chainLens z.pool rest := rfl
      by_cases hc : ((blk z.pool l).buf.len : Int) ≤ z.pos
      · have htl : z.tail - 1 = l := by omega
        set z1 : BufferPool :=
          { z with pos := z.pos - (blk z.pool l).buf.len,
                   pool := z.pool.set l { blk z.pool l with active := false },
                   tail := (blk z.pool l).next } with hz1
        have hstep : freeLoop (fuel + 1) z = freeLoop fuel z1 := by
          conv_lhs => rw [freeLoop]
          rw [if_pos ⟨by omega, by rw [htl]; exact hc⟩]
          rw [htl, hz1]
        have hlnotin : l ∉ rest := List.Nodup.not_mem hnd
        have hblk1 : ∀ j, j ≠ l → blk z1.pool j = blk z.pool j := by
          intro j hj
          exact blk_set_other z.pool l _ j (fun hcon => hj hcon.symm)
        have hblk1l : blk z1.pool l = { blk z.pool l with active := false } := by
          apply blk_set_same
          exact h2
        have hlen1 : z1.pool.length = z.pool.length := by simp [hz1]
        have hrest1 : chainLinks z1.pool z1.tail rest := by
          apply chainSeg_congr z.pool z1.pool 0 hlen1 _ rest h4
          intro j hj
          exact hblk1 j (fun hcon => hlnotin (hcon ▸ hj))
        have hlens1 : chainLens z1.pool rest = chainLens z.pool rest := by
          apply chainLens_congr
          intro j hj
          exact hblk1 j (fun hcon => hlnotin (hcon ▸ hj))
        obtain ⟨c1, c2, c3, c4, c5, c6⟩ :=
          ih z1 rest hrest1 (List.Nodup.of_cons hnd) (by simpa using Nat.lt_of_succ_lt_succ hf)
        have hz1pos : z1.pos = z.pos - ((blk z.pool l).buf.len : Int) := by rw [hz1]
        have hpc : popCount z.pos (chainLens z.pool (l :: rest)) =
            popCount z1.pos (chainLens z1.pool rest) + 1 := by
          rw [hlens, hlens1, hz1pos]
          have hunf : popCount z.pos ((blk z.pool l).buf.len :: chainLens z.pool rest)
              = (if ((blk z.pool l).buf.len : Int) ≤ z.pos
                 then popCount (z.pos - (blk z.pool l).buf.len) (chainLens z.pool rest) + 1
                 else 0) := rfl
          rw [hunf, if_pos hc]
        rw [hstep, hpc]
        refine ⟨?_, ?_, ?_, ?_, ?_, ?_⟩
        · simpa using c1
        · rw [c2]
          rw [hlens, hlens1]
          simp only [List.take_succ_cons, List.sum_cons]
          push_cast
          omega
        · rw [c3]
        · rw [c4, hlen1]
        · intro j hj
          rw [List.take_succ_cons] at hj
          simp only [List.mem_cons] at hj
          push_neg at hj
          obtain ⟨hj1, hj2⟩ := hj
          rw [c5 j hj2]
          exact hblk1 j hj1
        · intro j hj
          rw [List.take_succ_cons] at hj
          simp only [List.mem_cons] at hj
          rcases hj with hje | hjm
          · rw [hje]
            unfold blkActive
            rw [c5 l (by
              intro hcon
              have hlr : l ∈ rest := List.mem_of_mem_take hcon
              exact hlnotin hlr)]
            rw [hblk1l]
          · exact c6 j hjm
      · have hstop : freeLoop (fuel + 1) z = z := by
          unfold freeLoop
          rw [if_neg (by
            rw [show z.tail - 1 = l by omega]
            intro hcon
            exact hc hcon.2)]
        have hpc : popCount z.pos (chainLens z.pool (l :: rest)) = 0 := by
          rw [hlens]
          unfold popCount
          rw [if_neg hc]
        rw [hstop, hpc]
        refine ⟨⟨h1, h2, h3, h4⟩, by simp, rfl, rfl, by simp, by simp⟩

theorem chainHead_drop (k : Nat) : ∀ (L : List Nat), L.drop k ≠ [] →
    chainHead (L.drop k) = chainHead L := by
  induction k with
  | zero => intro L _; rfl
  | succ k ih =>
    intro L h
    match L with
    | [] => simp at h
    | l :: rest =>
      rw [List.drop_succ_cons] at h ⊢
      rw [ih rest h]
      have hrne : rest ≠ [] := by
        intro hcon
        rw [hcon] at h
        simp at h
      rw [chainHead_cons l rest hrne]

theorem free_eq (z : BufferPool) (n : Int) :
    z.free n = (if (freeLoop (z.pool.length + 1) { z with pos := z.pos + n }).tail = 0
      then { freeLoop (z.pool.length + 1) { z with pos := z.pos + n } with head := 0 }
      else freeLoop (z.pool.length + 1) { z with pos := z.pos + n }) := rfl

theorem free_spec (z : BufferPool) (n : Int) (L : List Nat)
    (hL : chainLinks z.pool z.tail L) (hhead : z.head = chainHead L) (hnd : L.Nodup) :
    chainLinks (z.free n).pool (z.free n).tail
      (L.drop (popCount (z.pos + n) (chainLens z.pool L))) ∧
    (z.free n).head = chainHead (L.drop (popCount (z.pos + n) (chainLens z.pool L))) ∧
    (L.drop (popCount (z.pos + n) (chainLens z.pool L))).Nodup ∧
    (z.free n).pos = z.pos + n -
      (((chainLens z.pool L).take (popCount (z.pos + n) (chainLens z.pool L))).sum : Int) ∧
    (z.free n).pool.length = z.pool.length ∧
    (∀ j, j ∉ L.take (popCount (z.pos + n) (chainLens z.pool L)) →
      blk (z.free n).pool j = blk z.pool j) ∧
    (∀ j ∈ L.take (popCount (z.pos + n) (chainLens z.pool L)),
      blkActive (z.free n).pool j = false) := by
  have hbound : L.length ≤ z.pool.length := by
    apply nodup_bound L z.pool.length hnd
    intro i hi
    exact (chainSeg_active z.pool 0 z.tail L hL i hi).2
  have hL1 : chainLinks ({ z with pos := z.pos + n } : BufferPool).pool
      ({ z with pos := z.pos + n } : BufferPool).tail L := hL
  obtain ⟨c1, c2, c3, c4, c5, c6⟩ :=
    freeLoop_spec (z.pool.length + 1) { z with pos := z.pos + n } L hL1 hnd (by omega)
  have hdnd : (L.drop (popCount (z.pos + n) (chainLens z.pool L))).Nodup :=
    List.Nodup.sublist (List.drop_sublist _ _) hnd
  rw [free_eq]
  set z2 := freeLoop (z.pool.length + 1) { z with pos := z.pos + n } with hz2
  by_cases hde : L.drop (popCount (z.pos + n) (chainLens z.pool L)) = []
  · have ht0 : z2.tail = 0 := by
      rw [hde] at c1
      exact c1
    rw [if_pos ht0]
    refine ⟨?_, ?_, hdnd, c2, c4, c5, c6⟩
    · show chainLinks z2.pool z2.tail _
      exact c1
    · show (0 : Nat) = chainHead _
      rw [hde]
      rfl
  · have htne : ¬ (z2.tail = 0) := by
      match hdd : L.drop (popCount (z.pos + n) (chainLens z.pool L)), c1 with
      | [], _ => exact absurd hdd hde
      | l' :: ls', c1 =>
        obtain ⟨g1, _, _, _⟩ := c1
        omega
    rw [if_neg htne]
    refine ⟨c1, ?_, hdnd, c2, c4, c5, c6⟩
    rw [chainHead_drop _ _ hde, ← hhead]
    exact c3

theorem blkActive_append_false (pool : List Block) (b : Block) (hb : b.active = true)
    (j : Nat) (h : blkActive (pool ++ [b]) j = false) : blkActive pool j = false := by
  by_cases hj : j < pool.length
  · unfold blkActive at h ⊢
    rw [blk_append pool [b] j hj] at h
    exact h
  · by_cases hj2 : j = pool.length
    · subst hj2
      unfold blkActive at h
      have hbj : blk (pool ++ [b]) pool.length = b := by
        simp [blk, List.getD, List.getElem?_append_right (le_refl pool.length)]
      rw [hbj] at h
      rw [hb] at h
      exact absurd h (by simp)
    · unfold blkActive
      have hout : blk pool j = dfltBlock := by
        unfold blk
        apply List.getD_eq_default
        omega
      rw [hout]
      rfl

theorem chain_tail_zero (pool : List Block) (L : List Nat)
    (hL : chainLinks pool 0 L) : L = [] := by
  cases L with
  | nil => rfl
  | cons l rest =>
    obtain ⟨g1, _, _, _⟩ := hL
    omega

theorem swap_wf (z : BufferPool) (old : GoSlice) (size : Int) (nb : GoSlice)
    (z' : BufferPool) (L : List Nat) (hL : chainLinks z.pool z.tail L)
    (hhead : z.head = chainHead L) (hnd : L.Nodup)
    (hswap : z.swap old size = some (nb, z')) :
    ∃ L', chainLinks z'.pool z'.tail L' ∧ z'.head = chainHead L' ∧ L'.Nodup ∧
      (∀ j, blkActive z'.pool j = false → blkActive z.pool j = false) ∧
      (z.tail ≠ 0 → z'.tail = z.tail ∧ z'.pos = z.pos ∧
        (∀ j ∈ L, (blk z'.pool j).buf = (blk z.pool j).buf)) ∧
      (z.tail = 0 → z'.tail ≠ 0 →
        (blk z'.pool (z'.tail - 1)).buf = old ∧ z'.pos = z.pos) := by
  unfold BufferPool.swap at hswap
  match hf : findFit z.pool size with
  | some i =>
    rw [hf] at hswap
    rw [Option.some.injEq, Prod.mk.injEq] at hswap
    obtain ⟨hnb, hz'⟩ := hswap
    obtain ⟨f1, f2, f3⟩ := findFit_spec z.pool size i hf
    have hnotin : i ∉ L := by
      intro hcon
      have := (chainSeg_active z.pool 0 z.tail L hL i hcon).1
      rw [f2] at this
      exact absurd this (by simp)
    obtain ⟨w1, w2, w3, w4, w5, w6, w7, w8, w9⟩ := intern_wf z i old L hL hhead hnd f1 hnotin
    rw [← hz']
    refine ⟨L ++ [i], w1, w2, w3, w6, ?_, ?_⟩
    · intro htne
      refine ⟨by rw [w9, if_neg htne], w4, ?_⟩
      intro j hj
      exact w7 j hj
    · intro ht0 _
      have hti : (z.intern i old).2.tail = i + 1 := by rw [w9, if_pos ht0]
      rw [hti]
      simp only [Nat.add_sub_cancel]
      rw [w8]
      exact ⟨rfl, w4⟩
  | none =>
    rw [hf] at hswap
    by_cases hip : (z.tail = 0 ∧ (old.len : Int) ≤ z.pos ∧ size ≤ (old.cap : Int) : Prop)
    · rw [if_pos hip] at hswap
      rw [Option.some.injEq, Prod.mk.injEq] at hswap
      obtain ⟨hnb, hz'⟩ := hswap
      rw [← hz']
      refine ⟨L, hL, hhead, hnd, fun j hj => hj, ?_, ?_⟩
      · intro htne
        exact absurd hip.1 htne
      · intro _ htne'
        exact absurd hip.1 htne'
    · rw [if_neg hip] at hswap
      by_cases hs : 0 ≤ size
      · rw [if_pos hs] at hswap
        rw [Option.some.injEq, Prod.mk.injEq] at hswap
        obtain ⟨hnb, hz'⟩ := hswap
        set z1 : BufferPool :=
          { z with pool := z.pool ++ [⟨⟨List.replicate size.toNat 0, 0⟩, 0, true⟩] } with hzz1
        have hL1 : chainLinks z1.pool z1.tail L :=
          chainSeg_append_pool z.pool _ 0 z.tail L hL
        have hi1 : z1.pool.length - 1 = z.pool.length := by
          show (z.pool ++ [(⟨⟨List.replicate size.toNat 0, 0⟩, 0, true⟩ : Block)]).length - 1
              = z.pool.length
          simp
        have hnotin : z.pool.length ∉ L := by
          intro hcon
          have := (chainSeg_active z.pool 0 z.tail L hL _ hcon).2
          omega
        have hibound : z.pool.length < z1.pool.length := by
          show z.pool.length < (z.pool ++ [(⟨⟨List.replicate size.toNat 0, 0⟩, 0, true⟩ : Block)]).length
          simp
        obtain ⟨w1, w2, w3, w4, w5, w6, w7, w8, w9⟩ :=
          intern_wf z1 z.pool.length old L hL1 hhead hnd hibound hnotin
        rw [hi1] at hz'
        rw [← hz']
        refine ⟨L ++ [z.pool.length], w1, w2, w3, ?_, ?_, ?_⟩
        · intro j hj
          apply blkActive_append_false z.pool ⟨⟨List.replicate size.toNat 0, 0⟩, 0, true⟩ rfl j
          exact w6 j hj
        · intro htne
          refine ⟨by rw [w9]; rw [if_neg htne], w4, ?_⟩
          intro j hj
          rw [w7 j hj]
          show (blk (z.pool ++ _) j).buf = _
          rw [blk_append z.pool _ j (chainSeg_active z.pool 0 z.tail L hL j hj).2]
        · intro ht0 _
          have hti : (z1.intern z.pool.length old).2.tail = z.pool.length + 1 := by
            rw [w9, if_pos ht0]
          rw [hti]
          simp only [Nat.add_sub_cancel]
          rw [w8]
          exact ⟨rfl, w4⟩
      · rw [if_neg hs] at hswap
        exact absurd hswap (by simp)

theorem popCount_le_length (p : Int) (lens : List Nat) :
    popCount p lens ≤ lens.length := by
  induction lens generalizing p with
  | nil => simp [popCount]
  | cons l ls ih =>
    unfold popCount
    by_cases hc : (l : Int) ≤ p
    · rw [if_pos hc]
      have := ih (p - l)
      simp only [List.length_cons]
      omega
    · rw [if_neg hc]
      simp

theorem sum_take_mono (lens : List Nat) (a b : Nat) (h : a ≤ b) :
    (lens.take a).sum ≤ (lens.take b).sum := by
  rw [show b = a + (b - a) by omega, List.take_add, List.sum_append]
  omega

theorem freeLoop_active_mono : ∀ (fuel : Nat) (z : BufferPool) (i : Nat),
    blkActive (freeLoop fuel z).pool i = true → blkActive z.pool i = true := by
  intro fuel
  induction fuel with
  | zero => intro z i h; exact h
  | succ fuel ih =>
    intro z i h
    unfold freeLoop at h
    by_cases hc : (z.tail ≠ 0 ∧ ((blk z.pool (z.tail - 1)).buf.len : Int) ≤ z.pos : Prop)
    · rw [if_pos hc] at h
      have h1 : (blk (z.pool.set (z.tail - 1)
          { blk z.pool (z.tail - 1) with active := false }) i).active = true := ih _ i h
      by_cases hi : i = z.tail - 1
      · by_cases hib : z.tail - 1 < z.pool.length
        · rw [hi] at h1
          rw [blk_set_same z.pool (z.tail - 1) _ hib] at h1
          exact absurd h1 (by simp)
        · unfold blkActive
          rw [List.set_eq_of_length_le (by omega)] at h1
          exact h1
      · unfold blkActive
        rw [blk_set_other z.pool (z.tail - 1) _ i (fun hcon => hi hcon.symm)] at h1
        exact h1
    · rw [if_neg hc] at h
      exact h

theorem free_active_mono (z : BufferPool) (n : Int) (i : Nat)
    (h : blkActive (z.free n).pool i = true) : blkActive z.pool i = true := by
  rw [free_eq] at h
  by_cases ht : (freeLoop (z.pool.length + 1) { z with pos := z.pos + n }).tail = 0
  · rw [if_pos ht] at h
    have h' : blkActive (freeLoop (z.pool.length + 1)
        { z with pos := z.pos + n }).pool i = true := h
    exact freeLoop_active_mono (z.pool.length + 1) { z with pos := z.pos + n } i h'
  · rw [if_neg ht] at h
    exact freeLoop_active_mono (z.pool.length + 1) { z with pos := z.pos + n } i h

theorem foldl_free_active_mono : ∀ (ns : List Int) (z : BufferPool) (i : Nat),
    blkActive (ns.foldl BufferPool.free z).pool i = true → blkActive z.pool i = true := by
  intro ns
  induction ns with
  | nil => intro z i h; exact h
  | cons n rest ih =>
    intro z i h
    rw [List.foldl_cons] at h
    exact free_active_mono z n i (ih (z.free n) i h)

theorem free_tail_bound (z : BufferPool) (n : Int) (L : List Nat)
    (hL : chainLinks z.pool z.tail L) (hhead : z.head = chainHead L) (hnd : L.Nodup)
    (htne : (z.free n).tail ≠ 0) : (z.free n).pos < (tailLen (z.free n) : Int) := by
  obtain ⟨c1, c2, c3, c4, c5, c6, c7⟩ := free_spec z n L hL hhead hnd
  match hdd : L.drop (popCount (z.pos + n) (chainLens z.pool L)), c1 with
  | [], c1 => exact absurd c1 htne
  | l' :: ls', c1 =>
    obtain ⟨g1, g2, g3, g4⟩ := c1
    have hnotin : l' ∉ L.take (popCount (z.pos + n) (chainLens z.pool L)) := by
      intro hcon
      have hdisj := hnd
      rw [← List.take_append_drop (popCount (z.pos + n) (chainLens z.pool L)) L,
          List.nodup_append] at hdisj
      exact hdisj.2.2 hcon (by rw [hdd]; simp)
    have hblk : blk (z.free n).pool l' = blk z.pool l' := c6 l' hnotin
    have hexit := popCount_exit (z.pos + n) (chainLens z.pool L)
      ((blk z.pool l').buf.len) (chainLens z.pool ls')
      (by
        have hcg := congrArg (List.map (fun i => (blk z.pool i).buf.len)) hdd
        rw [List.map_drop] at hcg
        exact hcg)
    unfold tailLen
    rw [show (z.free n).tail - 1 = l' by omega, hblk, c4]
    exact hexit

/-! ## Claim C7: `pos` stays below the tail block's length -/

/-- C7 counterexample: from an empty chain with `pos = 2` (a caller
legitimately committed and freed 2 bytes of the current buffer before
any block was interned) a growing `swap` (request 13 > cap 2, so the
in-place path is unavailable) interns the 2-byte retired buffer as the
new tail — leaving `pos = 2 = length(tailBlock)`, not `<`. -/
theorem c7_counterexample :
    (BufferPool.swap ⟨[], 0, 0, 2⟩ ⟨[97, 98], 2⟩ 13).map
      (fun r => (r.2.tail, r.2.pos, ((tailLen r.2 : Int)))) = some (1, 2, 2) ∧
    ¬ ((2 : Int) < 2) := ⟨by decide, by decide⟩

/-- C7 (amended): on a well-formed chain, (a) after every `free`,
whenever the chain is non-empty, `pos < length(tailBlock)` holds
unconditionally; (b) a `swap` from a non-empty chain preserves the
strict invariant (the tail block is untouched); (c) a `swap` from an
empty chain guarantees only `pos ≤ length(tailBlock)` given that the
caller's reported consumption does not exceed the retired bytes —
equality is possible (see the counterexample), and the block is
reclaimed by the next `free`. -/
theorem c7_pool_pos :
    (∀ (z : BufferPool) (n : Int) (L : List Nat),
      chainLinks z.pool z.tail L → z.head = chainHead L → L.Nodup →
      (z.free n).tail ≠ 0 → (z.free n).pos < (tailLen (z.free n) : Int)) ∧
    (∀ (z : BufferPool) (old : GoSlice) (size : Int) (nb : GoSlice) (z' : BufferPool)
       (L : List Nat),
      chainLinks z.pool z.tail L → z.head = chainHead L → L.Nodup →
      z.swap old size = some (nb, z') →
      (z.tail ≠ 0 → z.pos < (tailLen z : Int) →
        z'.tail = z.tail ∧ z'.pos < (tailLen z' : Int)) ∧
      (z.tail = 0 → z.pos ≤ (old.len : Int) → z'.tail ≠ 0 →
        z'.pos ≤ (tailLen z' : Int))) := by
  constructor
  · intro z n L hL hhead hnd htne
    exact free_tail_bound z n L hL hhead hnd htne
  · intro z old size nb z' L hL hhead hnd hswap
    obtain ⟨L', w1, w2, w3, w4, w5, w6⟩ := swap_wf z old size nb z' L hL hhead hnd hswap
    constructor
    · intro htne hlt
      obtain ⟨hteq, hpos, hbufs⟩ := w5 htne
      refine ⟨hteq, ?_⟩
      have hmem : z.tail - 1 ∈ L := by
        cases L with
        | nil => exact absurd hL htne
        | cons l rest =>
          obtain ⟨g1, _, _, _⟩ := hL
          rw [g1]
          simp
      have htl : tailLen z' = tailLen z := by
        unfold tailLen
        rw [hteq]
        rw [congrArg GoSlice.len (hbufs (z.tail - 1) hmem)]
      rw [htl, hpos]
      exact hlt
    · intro ht0 hle htne'
      obtain ⟨hbuf, hpos⟩ := w6 ht0 htne'
      have htl : (tailLen z' : Int) = (old.len : Int) := by
        unfold tailLen
        rw [hbuf]
      rw [htl, hpos]
      exact hle

/-- Witness for C7: freeing 1 byte of a 3-byte tail block keeps the
chain non-empty with `pos = 1 < 3`. -/
theorem c7_witness :
    (BufferPool.free ⟨[⟨⟨[97, 98, 99], 3⟩, 0, true⟩], 1, 1, 0⟩ 1).pos <
      ((tailLen (BufferPool.free ⟨[⟨⟨[97, 98, 99], 3⟩, 0, true⟩], 1, 1, 0⟩ 1)) : Int) :=
  c7_pool_pos.1 ⟨[⟨⟨[97, 98, 99], 3⟩, 0, true⟩], 1, 1, 0⟩ 1 [0]
    (by decide) (by decide) (by decide) (by decide)

/-! ## Claim C10: only chain members are active; only `free` clears -/

/-- C10: (1) every block on the tail-to-head chain is active; (2) `swap`
preserves pool well-formedness and never clears an active flag; (3)
`free` preserves well-formedness, and any flag it clears belongs to a
block that was on the chain and has been removed from it. -/
theorem c10_chain_active :
    (∀ (z : BufferPool) (L : List Nat), chainLinks z.pool z.tail L →
      ∀ j ∈ L, blkActive z.pool j = true) ∧
    (∀ (z : BufferPool) (old : GoSlice) (size : Int) (nb : GoSlice) (z' : BufferPool),
      PoolWF z → z.swap old size = some (nb, z') →
      PoolWF z' ∧ (∀ j, blkActive z'.pool j = false → blkActive z.pool j = false)) ∧
    (∀ (z : BufferPool) (n : Int) (L : List Nat),
      chainLinks z.pool z.tail L → z.head = chainHead L → L.Nodup →
      ∃ L', chainLinks (z.free n).pool (z.free n).tail L' ∧
        (z.free n).head = chainHead L' ∧ L'.Nodup ∧
        ∀ j, blkActive (z.free n).pool j = false →
          blkActive z.pool j = false ∨ (j ∈ L ∧ j ∉ L')) := by
  refine ⟨?_, ?_, ?_⟩
  · intro z L hL j hj
    exact (chainSeg_active z.pool 0 z.tail L hL j hj).1
  · intro z old size nb z' hwf hswap
    obtain ⟨L, hL, hhead, hnd⟩ := hwf
    obtain ⟨L', w1, w2, w3, w4, _, _⟩ := swap_wf z old size nb z' L hL hhead hnd hswap
    exact ⟨⟨L', w1, w2, w3⟩, w4⟩
  · intro z n L hL hhead hnd
    obtain ⟨c1, c2, c3, c4, c5, c6, c7⟩ := free_spec z n L hL hhead hnd
    refine ⟨L.drop (popCount (z.pos + n) (chainLens z.pool L)), c1, c2, c3, ?_⟩
    intro j hj
    by_cases hjt : j ∈ L.take (popCount (z.pos + n) (chainLens z.pool L))
    · right
      have hdisj := hnd
      rw [← List.take_append_drop (popCount (z.pos + n) (chainLens z.pool L)) L,
          List.nodup_append] at hdisj
      exact ⟨List.mem_of_mem_take hjt, hdisj.2.2 hjt⟩
    · left
      unfold blkActive at hj ⊢
      rw [c6 j hjt] at hj
      exact hj

/-- Witness for C10: a `swap` into an empty well-formed pool yields a
well-formed pool. -/
theorem c10_witness :
    PoolWF ⟨[⟨⟨[97], 1⟩, 0, true⟩], 1, 1, 0⟩ :=
  (c10_chain_active.2.1 ⟨[], 0, 0, 0⟩ ⟨[97], 1⟩ 1 ⟨[0], 0⟩
    ⟨[⟨⟨[97], 1⟩, 0, true⟩], 1, 1, 0⟩ ⟨[], by decide, by decide, List.nodup_nil⟩
    (by decide)).1

/-! ## Claim C8: `free` reclaims exactly on reaching the cumulative length -/

/-- C8: starting from a well-formed pool whose tail block is not yet
fully consumed (`pos < length(tailBlock)` when the chain is non-empty),
for every sequence of nonnegative consumption reports, the `j`-th chain
block (tail-to-head) is still active after folding the reports exactly
while the prior consumption `pos` plus the total reported is strictly
below the total length of that block and all blocks before it; it is
inactive (reclaimed) exactly from the first call at which that
cumulative total is reached — never earlier. -/
theorem c8_free_exact (z : BufferPool) (L : List Nat) (ns : List Int) (j : Nat)
    (hL : chainLinks z.pool z.tail L) (hhead : z.head = chainHead L) (hnd : L.Nodup)
    (hns : ∀ x ∈ ns, 0 ≤ x) (hpos0 : 0 ≤ z.pos)
    (hfirst : z.tail ≠ 0 → z.pos < (tailLen z : Int))
    (hj : j < L.length) :
    (blkActive (ns.foldl BufferPool.free z).pool (L.getD j 0) = true ↔
      z.pos + ns.sum < (((chainLens z.pool L).take (j + 1)).sum : Int)) := by
  induction ns generalizing z L j with
  | nil =>
    have hmem : L.getD j 0 ∈ L := by
      rw [List.getD_eq_getElem L 0 hj]
      exact List.getElem_mem hj
    have hact : blkActive z.pool (L.getD j 0) = true :=
      (chainSeg_active z.pool 0 z.tail L hL _ hmem).1
    have hrhs : z.pos + ([] : List Int).sum <
        (((chainLens z.pool L).take (j + 1)).sum : Int) := by
      cases L with
      | nil => simp at hj
      | cons l rest =>
        obtain ⟨g1, g2, g3, g4⟩ := hL
        have hlt := hfirst (by omega)
        unfold tailLen at hlt
        rw [show z.tail - 1 = l by omega] at hlt
        have hlens : chainLens z.pool (l :: rest) =
            (blk z.pool l).buf.len :: chainLens z.pool rest := rfl
        rw [hlens, List.take_succ_cons, List.sum_cons]
        simp only [List.sum_nil, add_zero]
        omega
    simp only [List.foldl_nil]
    exact iff_of_true hact hrhs
  | cons n rest' ih =>
    rw [List.foldl_cons]
    obtain ⟨c1, c2, c3, c4, c5, c6, c7⟩ := free_spec z n L hL hhead hnd
    have hn0 : 0 ≤ n := hns n (by simp)
    have hrest_nonneg : ∀ x ∈ rest', 0 ≤ x := fun x hx => hns x (by simp [hx])
    have hsum_rest : 0 ≤ rest'.sum := List.sum_nonneg hrest_nonneg
    have hpn : 0 ≤ z.pos + n := by omega
    have hkn := popCount_take_sum (z.pos + n) (chainLens z.pool L) hpn
    have hlenlens : (chainLens z.pool L).length = L.length := by simp [chainLens]
    have hk_len : popCount (z.pos + n) (chainLens z.pool L) ≤ L.length := by
      have := popCount_le_length (z.pos + n) (chainLens z.pool L)
      omega
    by_cases hjk : j < popCount (z.pos + n) (chainLens z.pool L)
    · have hjmem : L.getD j 0 ∈ L.take (popCount (z.pos + n) (chainLens z.pool L)) := by
        have hjt : j < (L.take (popCount (z.pos + n) (chainLens z.pool L))).length := by
          simp only [List.length_take]
          omega
        have h2 : (L.take (popCount (z.pos + n) (chainLens z.pool L)))[j] = L[j] := by
          rw [List.getElem_take]
        rw [List.getD_eq_getElem L 0 hj, ← h2]
        exact List.getElem_mem hjt
      have hz1false : blkActive (z.free n).pool (L.getD j 0) = false := c7 _ hjmem
      have hfinal : blkActive (rest'.foldl BufferPool.free (z.free n)).pool
          (L.getD j 0) = false := by
        cases hb : blkActive (rest'.foldl BufferPool.free (z.free n)).pool (L.getD j 0) with
        | false => rfl
        | true =>
          have hcontra := foldl_free_active_mono rest' (z.free n) (L.getD j 0) hb
          rw [hz1false] at hcontra
          exact absurd hcontra (by simp)
      have hrhs : ¬ (z.pos + (n :: rest').sum <
          (((chainLens z.pool L).take (j + 1)).sum : Int)) := by
        rw [List.sum_cons]
        have hmono := sum_take_mono (chainLens z.pool L) (j + 1)
          (popCount (z.pos + n) (chainLens z.pool L)) (by omega)
        omega
      exact iff_of_false (by rw [hfinal]; simp) hrhs
    · have hpos1 : 0 ≤ (z.free n).pos := by
        rw [c4]
        omega
      have hfirst1 : (z.free n).tail ≠ 0 → (z.free n).pos < (tailLen (z.free n) : Int) :=
        fun ht => free_tail_bound z n L hL hhead hnd ht
      have hjlen : j - popCount (z.pos + n) (chainLens z.pool L) <
          (L.drop (popCount (z.pos + n) (chainLens z.pool L))).length := by
        rw [List.length_drop]
        omega
      have IH := ih (z.free n) (L.drop (popCount (z.pos + n) (chainLens z.pool L)))
        (j - popCount (z.pos + n) (chainLens z.pool L)) c1 c2 c3 hrest_nonneg
        hpos1 hfirst1 hjlen
      have hgetD : (L.drop (popCount (z.pos + n) (chainLens z.pool L))).getD
          (j - popCount (z.pos + n) (chainLens z.pool L)) 0 = L.getD j 0 := by
        rw [List.getD_eq_getElem?_getD, List.getD_eq_getElem?_getD, List.getElem?_drop,
            show popCount (z.pos + n) (chainLens z.pool L) +
              (j - popCount (z.pos + n) (chainLens z.pool L)) = j from by omega]
      have hlens1 : chainLens (z.free n).pool
          (L.drop (popCount (z.pos + n) (chainLens z.pool L))) =
          (chainLens z.pool L).drop (popCount (z.pos + n) (chainLens z.pool L)) := by
        have hsame : ∀ i ∈ L.drop (popCount (z.pos + n) (chainLens z.pool L)),
            blk (z.free n).pool i = blk z.pool i := by
          intro i hi
          apply c6
          intro hcon
          have hdisj := hnd
          rw [← List.take_append_drop (popCount (z.pos + n) (chainLens z.pool L)) L,
              List.nodup_append] at hdisj
          exact hdisj.2.2 hcon hi
        rw [chainLens_congr z.pool (z.free n).pool _ hsame]
        show List.map _ _ = _
        rw [List.map_drop]
        rfl
      have hsplit : (chainLens z.pool L).take (j + 1) =
          (chainLens z.pool L).take (popCount (z.pos + n) (chainLens z.pool L)) ++
          ((chainLens z.pool L).drop (popCount (z.pos + n) (chainLens z.pool L))).take
            (j + 1 - popCount (z.pos + n) (chainLens z.pool L)) := by
        rw [← List.take_add]
        congr 1
        omega
      have harith : ((z.free n).pos + rest'.sum <
          (((chainLens (z.free n).pool
            (L.drop (popCount (z.pos + n) (chainLens z.pool L)))).take
            (j - popCount (z.pos + n) (chainLens z.pool L) + 1)).sum : Int)) ↔
          (z.pos + (n :: rest').sum <
            (((chainLens z.pool L).take (j + 1)).sum : Int)) := by
        rw [hlens1, c4, List.sum_cons,
            show j - popCount (z.pos + n) (chainLens z.pool L) + 1 =
              j + 1 - popCount (z.pos + n) (chainLens z.pool L) from by omega,
            hsplit, List.sum_append]
        omega
      rw [hgetD] at IH
      exact IH.trans harith

/-- Witness for C8: one block of length 2, prior `pos = 0`, one report
of 2 bytes: after the fold the block is inactive, matching `0 + 2 < 2`
being false. -/
theorem c8_witness :
    (blkActive (([2] : List Int).foldl BufferPool.free
        ⟨[⟨⟨[97, 98], 2⟩, 0, true⟩], 1, 1, 0⟩).pool (([0] : List Nat).getD 0 0) = true ↔
      (0 : Int) + ([2] : List Int).sum <
        (((chainLens [⟨⟨[97, 98], 2⟩, 0, true⟩] [0]).take (0 + 1)).sum : Int)) :=
  c8_free_exact ⟨[⟨⟨[97, 98], 2⟩, 0, true⟩], 1, 1, 0⟩ [0] [2] 0
    (by decide) (by decide) (by decide) (by decide) (by decide) (by decide) (by decide)
